import Mathlib

set_option maxRecDepth 100000

/-!
Verification of the natural-language-to-SQL engine of the
Healthcare-Cost-Navigator repository (backend/app).

The Python sources are shallowly embedded: pure string manipulation is
translated to executable functions over `List Char` / `String`; calls into
the database, the OpenAI client and the third-party `sqlglot` parser are
modelled as explicit oracle parameters (functions passed to the embedded
code).  Python floats are modelled by `ℚ`.  Character-level operations
(`str.lower`, `str.isdigit`, whitespace) are modelled on the ASCII fragment
actually exercised by the SQL pipeline.
-/

namespace HCNav

/-! ## Basic character and string machinery -/

/-- Lowercasing of a character list (model of Python `str.lower` on the
ASCII fragment; Lean's `Char.toLower` lowercases exactly the ASCII range). -/
def lowerL (s : List Char) : List Char := s.map Char.toLower

/-- Lowercasing of a string. -/
def lowerS (s : String) : String := String.mk (lowerL s.data)

/-- Uppercasing of a string (model of Python `str.upper`, ASCII fragment). -/
def upperS (s : String) : String := String.mk (s.data.map Char.toUpper)

/-- Does list `s` start with list `p`? -/
def startsWithL : List Char → List Char → Bool
  | [], _ => true
  | _ :: _, [] => false
  | p :: ps, c :: cs => p == c && startsWithL ps cs

/-- Substring containment on lists, the model of the Python `in` operator
on strings: `containsL p s` is true iff `p` occurs contiguously in `s`. -/
def containsL (p : List Char) : List Char → Bool
  | [] => p.isEmpty
  | c :: cs => startsWithL p (c :: cs) || containsL p cs

/-- Substring containment on strings (Python `p in s`). -/
def containsS (p s : String) : Bool := containsL p.data s.data

/-- Auxiliary scanner for `replaceS`, fuelled by the subject length:
replace every (leftmost, non-overlapping) occurrence of `p` by `r`. -/
def replaceAllL (p r : List Char) : Nat → List Char → List Char
  | _, [] => []
  | 0, s => s
  | fuel + 1, c :: cs =>
    if startsWithL p (c :: cs) then
      r ++ replaceAllL p r fuel ((c :: cs).drop p.length)
    else
      c :: replaceAllL p r fuel cs

/-- Model of Python `s.replace(p, r)` (all occurrences, left to right,
non-overlapping).  The sources never call it with an empty pattern; for an
empty pattern we return the string unchanged. -/
def replaceS (s p r : String) : String :=
  if p.data.isEmpty then s
  else String.mk (replaceAllL p.data r.data s.data.length s.data)

/-- Model of Python `s.rstrip(";")`: drop trailing `;` characters. -/
def rstripSemi (s : List Char) : List Char :=
  (s.reverse.dropWhile (fun c => c == ';')).reverse

/-- Model of Python `s.strip()` (whitespace removed from both ends). -/
def stripL (s : List Char) : List Char :=
  ((s.dropWhile Char.isWhitespace).reverse.dropWhile Char.isWhitespace).reverse

/-- Model of Python `s.strip("%")`: percent signs removed from both ends. -/
def stripPercentL (s : List Char) : List Char :=
  (((s.dropWhile (fun c => c == '%')).reverse.dropWhile (fun c => c == '%'))).reverse

/-- Word character of the `re` module's `\b` boundary (ASCII fragment):
letters, digits and underscore. -/
def isWordChar (c : Char) : Bool := c.isAlphanum || c == '_'

/-- The decimal digits of `k` prefixed with `$`: the text of placeholder
number `k`. -/
def placeholderL (k : Nat) : List Char := '$' :: (Nat.repr k).data

/-! ## Generic scanner machines

Each regex substitution used by `sql_normalizer.py` is embedded as a
one-character-per-step state machine: a step function consuming one input
character, run by the generic fold `mrun`, plus a finaliser applied at end
of input.  This keeps every definition structurally recursive (hence
kernel-evaluable) and makes runs compose over list append. -/

/-- Run a scanner machine: fold the step function over the input,
concatenating the emitted output chunks and extracted constants. -/
def mrun {σ : Type} (step : σ → Char → σ × List Char × List String) :
    σ → List Char → σ × List Char × List String
  | st, [] => (st, [], [])
  | st, c :: cs =>
    let r1 := step st c
    let r2 := mrun step r1.1 cs
    (r2.1, r1.2.1 ++ r2.2.1, r1.2.2 ++ r2.2.2)

/-! ### String-literal substitution

Embedding of the regex substitution with pattern `'([^']*)'` used by
`SQLNormalizer._extract_and_replace_constants` and
`SQLNormalizer._basic_normalize`: each quoted literal `'body'` is replaced
by `'$k'` for the running counter `k`, and `body` is appended to the
constants.  A final unpaired quote (and what follows it) is left verbatim,
exactly as the regex leaves it unmatched.  State: the counter plus, when a
candidate literal is open, the accumulated body. -/

def strStep : (Nat × Option (List Char)) → Char →
    (Nat × Option (List Char)) × List Char × List String
  | (k, none), c =>
    if c == '\'' then ((k, some []), [], [])
    else ((k, none), [c], [])
  | (k, some acc), c =>
    if c == '\'' then
      ((k + 1, none), '\'' :: (placeholderL k ++ ['\'']), [String.mk acc])
    else ((k, some (acc ++ [c])), [], [])

/-- Finaliser of the string-literal scanner: an unpaired opening quote and
the characters read after it are restored verbatim. -/
def strFinal : Nat × Option (List Char) → List Char
  | (_, none) => []
  | (_, some acc) => '\'' :: acc

/-- String-literal substitution pass starting at counter `k`:
returns (output, extracted string constants, next counter). -/
def stringSubL (k : Nat) (s : List Char) : List Char × List String × Nat :=
  let r := mrun strStep (k, none) s
  (r.2.1 ++ strFinal r.1, r.2.2, r.1.1)

/-! ### Numeric-literal substitution

Embedding of the regex substitution with pattern
`(?<!\$)\b\d+(?:\.\d+)?\b` (negative lookbehind for `$`, word boundary,
digits, optional fraction, trailing word boundary).  A match can start at
a digit only when the preceding character is absent or is neither a word
character nor `$`.  The trailing `\b` makes the engine backtrack: a digit
run followed directly by a letter or underscore matches nothing and is
left verbatim; a fraction whose digits are followed by a letter or
underscore is dropped and the integer part alone is matched (its trailing
boundary is the `.`).  States: scanning (`ready` carries the previous
character), inside the integer part (`num`), just after a candidate
decimal point (`dotp`), inside the fraction (`frac`). -/

inductive NumMode : Type
  | ready (prev : Option Char)
  | num (acc : List Char)
  | dotp (acc : List Char)
  | frac (acc : List Char) (facc : List Char)
deriving Repr, DecidableEq

/-- Can a numeric match start here, given the previous character?
Models `(?<!\$)\b` in front of a digit. -/
def numStartOk : Option Char → Bool
  | none => true
  | some p => !isWordChar p && !(p == '$')

def numStep : (Nat × NumMode) → Char → (Nat × NumMode) × List Char × List String
  | (k, NumMode.ready prev), c =>
    if c.isDigit && numStartOk prev then ((k, NumMode.num [c]), [], [])
    else ((k, NumMode.ready (some c)), [c], [])
  | (k, NumMode.num acc), c =>
    if c.isDigit then ((k, NumMode.num (acc ++ [c])), [], [])
    else if c == '.' then ((k, NumMode.dotp acc), [], [])
    else if isWordChar c then ((k, NumMode.ready (some c)), acc ++ [c], [])
    else ((k + 1, NumMode.ready (some c)), placeholderL k ++ [c], [String.mk acc])
  | (k, NumMode.dotp acc), c =>
    if c.isDigit then ((k, NumMode.frac acc [c]), [], [])
    else ((k + 1, NumMode.ready (some c)), placeholderL k ++ ('.' :: [c]), [String.mk acc])
  | (k, NumMode.frac acc facc), c =>
    if c.isDigit then ((k, NumMode.frac acc (facc ++ [c])), [], [])
    else if isWordChar c then
      ((k + 1, NumMode.ready (some c)), placeholderL k ++ ('.' :: (facc ++ [c])),
        [String.mk acc])
    else
      ((k + 1, NumMode.ready (some c)), placeholderL k ++ [c],
        [String.mk (acc ++ ('.' :: facc))])

/-- Finaliser of the numeric scanner: a pending match at end of input is
emitted as a placeholder. -/
def numFinal : Nat × NumMode → List Char × List String
  | (_, NumMode.ready _) => ([], [])
  | (k, NumMode.num acc) => (placeholderL k, [String.mk acc])
  | (k, NumMode.dotp acc) => (placeholderL k ++ ['.'], [String.mk acc])
  | (k, NumMode.frac acc facc) => (placeholderL k, [String.mk (acc ++ ('.' :: facc))])

/-- Numeric-literal substitution pass starting at counter `k`:
returns (output, extracted numeric constants, next counter). -/
def numberSubL (k : Nat) (s : List Char) : List Char × List String × Nat :=
  let r := mrun numStep (k, NumMode.ready none) s
  let f := numFinal r.1
  (r.2.1 ++ f.1, r.2.2 ++ f.2, r.1.1)

/-! ### Whitespace collapsing -/

/-- Step of the whitespace collapser, the embedding of the substitution
`re.sub(r"\s+", " ", s)`: a run of whitespace becomes a single space.
State: whether the previous character was whitespace. -/
def wsStep : Bool → Char → Bool × List Char × List String
  | prevWs, c =>
    if c.isWhitespace then (true, if prevWs then [] else [' '], [])
    else (false, [c], [])

/-- Collapse every whitespace run to a single space. -/
def wsCollapseL (s : List Char) : List Char := (mrun wsStep false s).2.1

/-- Total output of the numeric scanner started in state `st` (run output
followed by the finaliser's output). -/
def numOutFrom (st : Nat × NumMode) (s : List Char) : List Char :=
  (mrun numStep st s).2.1 ++ (numFinal (mrun numStep st s).1).1

/-- Output of the whitespace collapser started with flag `b`. -/
def wsOutFrom (b : Bool) (s : List Char) : List Char := (mrun wsStep b s).2.1

/-! ### Operator spacing

Embedding of `re.sub(r"\s*([=<>!]+)\s*", r" \1 ", s)` from
`SQLNormalizer._apply_additional_normalization`: an operator run together
with surrounding whitespace is rewritten to the operator run with exactly
one space on each side.  States: scanning with pending whitespace (`scan`),
inside an operator run (`op`), consuming trailing whitespace (`trail`). -/

inductive OpMode : Type
  | scan (pend : List Char)
  | op (ops : List Char)
  | trail (ops : List Char)
deriving Repr, DecidableEq

def isOpChar (c : Char) : Bool := c == '=' || c == '<' || c == '>' || c == '!'

def opStep : OpMode → Char → OpMode × List Char × List String
  | OpMode.scan pend, c =>
    if c.isWhitespace then (OpMode.scan (pend ++ [c]), [], [])
    else if isOpChar c then (OpMode.op [c], [], [])
    else (OpMode.scan [], pend ++ [c], [])
  | OpMode.op ops, c =>
    if isOpChar c then (OpMode.op (ops ++ [c]), [], [])
    else if c.isWhitespace then (OpMode.trail ops, [], [])
    else (OpMode.scan [], ' ' :: (ops ++ (' ' :: [c])), [])
  | OpMode.trail ops, c =>
    if c.isWhitespace then (OpMode.trail ops, [], [])
    else if isOpChar c then (OpMode.op [c], ' ' :: (ops ++ [' ']), [])
    else (OpMode.scan [], ' ' :: (ops ++ (' ' :: [c])), [])

def opFinal : OpMode → List Char
  | OpMode.scan pend => pend
  | OpMode.op ops => ' ' :: (ops ++ [' '])
  | OpMode.trail ops => ' ' :: (ops ++ [' '])

/-- Normalize spacing around `=<>!` operator runs. -/
def opSpaceL (s : List Char) : List Char :=
  let r := mrun opStep (OpMode.scan []) s
  r.2.1 ++ opFinal r.1

/-! ### ASC normalization

Embedding of
`re.sub(r"\border\s+by\s+([^,\s]+)\s+asc\b", r"ORDER BY \1", s)` from
`SQLNormalizer._apply_additional_normalization`.  Note that the
replacement text `ORDER BY` is upper case although the rule runs after
lowercasing — this is faithful to the source. -/

/-- Consume one-or-more whitespace characters (`\s+`). -/
def dropWs1 (s : List Char) : Option (List Char) :=
  match s with
  | c :: cs => if c.isWhitespace then some (cs.dropWhile Char.isWhitespace) else none
  | [] => none

/-- Consume one-or-more characters matching `[^,\s]` (the capture group). -/
def takeTok (s : List Char) : Option (List Char × List Char) :=
  let tok := s.takeWhile (fun c => !(c == ',') && !c.isWhitespace)
  if tok.isEmpty then none else some (tok, s.drop tok.length)

/-- Consume an exact literal. -/
def stripLitL (p s : List Char) : Option (List Char) :=
  if startsWithL p s then some (s.drop p.length) else none

/-- Try to match `order\s+by\s+([^,\s]+)\s+asc\b` at the current position;
on success return the capture group and the rest of the input. -/
def matchAscAt (s : List Char) : Option (List Char × List Char) :=
  match stripLitL ['o', 'r', 'd', 'e', 'r'] s with
  | none => none
  | some s1 =>
    match dropWs1 s1 with
    | none => none
    | some s2 =>
      match stripLitL ['b', 'y'] s2 with
      | none => none
      | some s3 =>
        match dropWs1 s3 with
        | none => none
        | some s4 =>
          match takeTok s4 with
          | none => none
          | some (grp, s5) =>
            match dropWs1 s5 with
            | none => none
            | some s6 =>
              match stripLitL ['a', 's', 'c'] s6 with
              | none => none
              | some s7 =>
                match s7 with
                | [] => some (grp, [])
                | c :: _ => if isWordChar c then none else some (grp, s7)

/-- Scanner for the ASC rule, fuelled by the input length; `prev` carries
the previous character for the leading `\b` boundary. -/
def ascSubGo (prev : Option Char) : Nat → List Char → List Char
  | _, [] => []
  | 0, s => s
  | fuel + 1, c :: cs =>
    if (match prev with | none => true | some p => !isWordChar p) then
      match matchAscAt (c :: cs) with
      | some (grp, rest) =>
        ('O' :: 'R' :: 'D' :: 'E' :: 'R' :: ' ' :: 'B' :: 'Y' :: ' ' :: grp) ++
          ascSubGo (some 'c') fuel rest
      | none => c :: ascSubGo (some c) fuel cs
    else c :: ascSubGo (some c) fuel cs

def ascSubL (s : List Char) : List Char := ascSubGo none s.length s

/-! ## `sql_normalizer.py` — `SQLNormalizer` -/

/-- Embedding of `SQLNormalizer._apply_additional_normalization`:
lowercase, collapse whitespace, normalize operator spacing, apply the ASC
rule, strip. -/
def apply_additional_normalization (s : String) : String :=
  String.mk (stripL (ascSubL (opSpaceL (wsCollapseL (lowerL s.data)))))

/-- Embedding of `SQLNormalizer._extract_and_replace_constants`: string
literals are replaced first, then numeric literals, sharing one counter
that starts at 1. -/
def extract_and_replace_constants (sql : String) : String × List String :=
  let r1 := stringSubL 1 sql.data
  let r2 := numberSubL r1.2.2 r1.1
  (String.mk r2.1, r1.2.1 ++ r2.2.1)

/-- Embedding of `SQLNormalizer._basic_normalize` (the fallback used when
`sqlglot` fails to parse): lowercase, substitute string then numeric
literals, collapse whitespace, strip. -/
def basic_normalize (sql : String) : String × List String :=
  let r1 := stringSubL 1 (lowerL sql.data)
  let r2 := numberSubL r1.2.2 r1.1
  (String.mk (stripL (wsCollapseL r2.1)), r1.2.1 ++ r2.2.1)

/-- Embedding of `SQLNormalizer.normalize_sql`.  The call into the
third-party `sqlglot` parser/generator (`parse_one` followed by `.sql`) is
an oracle `G`; `G sql = none` models a parse failure (the `except` branch),
`G sql = some canonical` models the canonical re-print of the parsed AST. -/
def normalize_sql (G : String → Option String) (sql : String) : String × List String :=
  match G sql with
  | some canonical =>
    let r := extract_and_replace_constants canonical
    (apply_additional_normalization r.1, r.2)
  | none => basic_normalize sql

/-- Oracle modelling `sqlglot.parse_one` followed by `.sql()` on the two
inputs of the idempotence counterexample: sqlglot re-prints SQL with
upper-case keywords and preserves an explicit `ASC`. -/
def sqlglotAscOracle : String → Option String := fun s =>
  if s == "SELECT provider_name FROM providers ORDER BY provider_name ASC" then
    some "SELECT provider_name FROM providers ORDER BY provider_name ASC"
  else if s == "select provider_name from providers ORDER BY provider_name" then
    some "SELECT provider_name FROM providers ORDER BY provider_name"
  else none

/-- The forbidden-keyword list of `SQLNormalizer.validate_sql_safety`
(note: 11 keywords — `call`, `merge`, `replace`, `upsert`, `pg_`, `dblink`
appear only in the never-imported `SQLSafetyValidator` class). -/
def forbiddenKeywordsNormalizer : List String :=
  ["insert", "update", "delete", "drop", "truncate",
   "alter", "create", "grant", "revoke", "copy", "execute"]

/-- Embedding of the keyword test `f" {keyword} " in f" {sql_lower} "`:
the keyword, surrounded by single spaces, occurs in the lowercased SQL
padded with one space on each side. -/
def keywordHit (sql kw : String) : Bool :=
  containsS (" " ++ kw ++ " ") (" " ++ lowerS sql ++ " ")

/-- Embedding of the multi-statement test `";" in sql.rstrip(";")`. -/
def hasSecondStatement (sql : String) : Bool :=
  (rstripSemi sql.data).contains ';'

/-- Embedding of `SQLNormalizer.validate_sql_safety`.  `parsedSelect`
stands for the sqlglot oracle result of lines 153–160: `True` iff
`sqlglot.parse_one(sql)` succeeds and yields a `Select` expression (any
parse exception or non-`Select` result makes the function return `False`). -/
def validate_sql_safety (parsedSelect : Bool) (sql : String) : Bool :=
  parsedSelect &&
  forbiddenKeywordsNormalizer.all (fun kw => !keywordHit sql kw) &&
  !hasSecondStatement sql

/-! ### Syntactic invariants of normalized output

These predicates characterize the strings produced by the fallback
normalization; each of the four passes is the identity on a string
satisfying them, which gives the idempotence of `_basic_normalize`. -/

/-- Every character is fixed by lowercasing. -/
def AllLower (l : List Char) : Prop := ∀ c ∈ l, Char.toLower c = c

/-- No single-quote character occurs. -/
def quoteFree (l : List Char) : Prop := '\'' ∉ l

/-- Shape of the output of the string-literal pass: quote-free segments
interleaved with blocks `'$k'` numbered consecutively from `k`, possibly
ending in a single unpaired quote followed by quote-free text.  The
string-literal scanner maps a string of this shape to itself. -/
inductive QShape : Nat → List Char → Prop
  | done (k : Nat) (a : List Char) : quoteFree a → QShape k a
  | dangling (k : Nat) (a t : List Char) : quoteFree a → quoteFree t →
      QShape k (a ++ '\'' :: t)
  | block (k : Nat) (a rest : List Char) : quoteFree a → QShape (k + 1) rest →
      QShape k (a ++ '\'' :: (placeholderL k ++ '\'' :: rest))

/-- The maximal digit prefix is followed by a word character (a letter or
underscore): the trailing `\b` of the numeric pattern then fails for the
whole run, so the scanner leaves it verbatim. -/
def escapesRun (l : List Char) : Prop :=
  match l.dropWhile Char.isDigit with
  | c :: _ => isWordChar c = true
  | [] => False

/-- Every digit is — with respect to the running previous character,
starting from `prev` — either preceded by a character that blocks a
numeric match or part of a digit run whose trailing word boundary fails.
The numeric scanner maps such a string to itself. -/
def NumSafe : Option Char → List Char → Prop
  | _, [] => True
  | prev, c :: cs =>
    (c.isDigit = true → numStartOk prev = false ∨ escapesRun (c :: cs)) ∧
      NumSafe (some c) cs

/-- The pending accumulators of a numeric-scanner state hold only digits
(true of every state reachable from a `ready` state). -/
def AccDigits : Nat × NumMode → Prop
  | (_, NumMode.ready _) => True
  | (_, NumMode.num acc) => ∀ c ∈ acc, c.isDigit = true
  | (_, NumMode.dotp acc) => ∀ c ∈ acc, c.isDigit = true
  | (_, NumMode.frac acc facc) =>
    (∀ c ∈ acc, c.isDigit = true) ∧ ∀ c ∈ facc, c.isDigit = true

/-- All whitespace is single spaces and never two in a row, with respect
to the running previous-whitespace flag.  The whitespace collapser maps
such a string to itself. -/
def WsOk : Bool → List Char → Prop
  | _, [] => True
  | prevWs, c :: cs =>
    (c.isWhitespace = true → (c = ' ' ∧ prevWs = false)) ∧ WsOk c.isWhitespace cs

/-- Drop from the right while the predicate holds. -/
def rdropL (p : Char → Bool) (l : List Char) : List Char :=
  (l.reverse.dropWhile p).reverse

/-- Last character of `l`, or `p` when `l` is empty: the previous-character
tracker after emitting `l`. -/
def lastCharOr (p : Option Char) (l : List Char) : Option Char :=
  match l.getLast? with
  | some c => some c
  | none => p

/-- The special characters any normalization pass may emit. -/
def SpecialC (c : Char) : Prop :=
  c = '\'' ∨ c = '$' ∨ c = '.' ∨ c = ' ' ∨ c.isDigit = true

/-- The special characters the numeric pass may emit (never a quote). -/
def NSpecial (c : Char) : Prop := c = '$' ∨ c = '.' ∨ c.isDigit = true

/-- The whitespace flag after emitting `x`, starting from flag `b`. -/
def lastWsFlag (b : Bool) (x : List Char) : Bool :=
  match x.getLast? with
  | some c => c.isWhitespace
  | none => b

/-! ## `template_loader.py` — `TemplateService` -/

/-- Strip an optional leading sign, helper for the Python `int()`/`float()`
literal grammars. -/
def stripSign (t : List Char) : List Char :=
  match t with
  | c :: cs => if c == '+' || c == '-' then cs else c :: cs
  | [] => []

/-- Model of `int(v)` succeeding: optional surrounding whitespace, optional
sign, one or more digits.  (Underscored literals of CPython are not
modelled; the pipeline never produces them.) -/
def intParsable (v : String) : Bool :=
  let t := stripSign (stripL v.data)
  !t.isEmpty && t.all Char.isDigit

/-- Exponent part of a float literal: empty, or `e`/`E`, optional sign,
one or more digits. -/
def expOkL : List Char → Bool
  | [] => true
  | 'e' :: r => !(stripSign r).isEmpty && (stripSign r).all Char.isDigit
  | 'E' :: r => !(stripSign r).isEmpty && (stripSign r).all Char.isDigit
  | _ => false

/-- Model of `float(v)` succeeding, restricted to decimal literals with
optional fraction and exponent (`inf`/`nan`/underscores not modelled; the
pipeline only meets plain decimals here). -/
def floatParsable (v : String) : Bool :=
  let t := stripSign (stripL v.data)
  let ip := t.takeWhile Char.isDigit
  let r1 := t.dropWhile Char.isDigit
  match r1 with
  | [] => !ip.isEmpty
  | '.' :: r2 =>
    let fp := r2.takeWhile Char.isDigit
    let r3 := r2.dropWhile Char.isDigit
    (!ip.isEmpty || !fp.isEmpty) && expOkL r3
  | _ => !ip.isEmpty && expOkL r1

/-- Model of Python `v.isdigit()` (ASCII digits). -/
def isDigitStr (v : String) : Bool := !v.data.isEmpty && v.data.all Char.isDigit

/-- Embedding of `TemplateService._determine_data_type`. -/
def determine_data_type (v : String) : String :=
  if [("true" : String), "false", "t", "f"].contains (lowerS v) then "boolean"
  else if isDigitStr v && decide (v.data.length ≤ 4) then "string"
  else if v.data.contains '.' then
    (if floatParsable v then "float" else "string")
  else if intParsable v then
    (if decide (v.data.length > 4) then "integer" else "string")
  else "string"

/-- Scanner for the substitution with pattern `('?)\$n('?)` used by the
default branch of `TemplateService.map_parameters`: an occurrence of the
parameter name, together with an optional single quote on either side, is
replaced by `r`.  Fuelled by the subject length; `p` is the parameter name
(never empty). -/
def paramSubGo (p r : List Char) : Nat → List Char → List Char
  | _, [] => []
  | 0, s => s
  | fuel + 1, c :: cs =>
    if c == '\'' && startsWithL p cs then
      match cs.drop p.length with
      | '\'' :: rest2 => r ++ paramSubGo p r fuel rest2
      | rest => r ++ paramSubGo p r fuel rest
    else if startsWithL p (c :: cs) then
      match (c :: cs).drop p.length with
      | '\'' :: rest2 => r ++ paramSubGo p r fuel rest2
      | rest => r ++ paramSubGo p r fuel rest
    else c :: paramSubGo p r fuel cs

/-- Embedding of the dataclass `ParameterMapping`. -/
structure ParameterMapping where
  parameter_name : String
  original_value : String
  data_type : String
deriving Repr, DecidableEq

/-- One iteration of the `map_parameters` loop for constant number `i`
(1-based) with value `c`: handle an `ILIKE '$i'` context, else a
`LIKE '$i'` context, else the quoted/bare positional substitution. -/
def mapParamStep (sql : String) (i : Nat) (c : String) : String × ParameterMapping :=
  let pname := "$" ++ Nat.repr i
  let dt := determine_data_type c
  let m : ParameterMapping := ⟨pname, c, dt⟩
  let ilikePat := "ILIKE '" ++ pname ++ "'"
  let likePat := "LIKE '" ++ pname ++ "'"
  if containsS ilikePat sql then
    (replaceS sql ilikePat ("ILIKE '%" ++ String.mk (stripPercentL c.data) ++ "%'"), m)
  else if containsS likePat sql then
    (replaceS sql likePat ("LIKE '%" ++ String.mk (stripPercentL c.data) ++ "%'"), m)
  else
    let r := if dt == "string" then "'" ++ c ++ "'" else c
    (String.mk (paramSubGo pname.data r.data sql.data.length sql.data), m)

/-- The `for i, constant in enumerate(user_constants, 1)` loop of
`map_parameters`, threading the partially substituted SQL. -/
def mapParamsGo (sql : String) (i : Nat) : List String → String × List ParameterMapping
  | [] => (sql, [])
  | c :: cs =>
    let r1 := mapParamStep sql i c
    let r2 := mapParamsGo r1.1 (i + 1) cs
    (r2.1, r1.2 :: r2.2)

/-- Embedding of `TemplateService.map_parameters`: substitute the user
constants into the `$1, $2, …` placeholders of the template SQL, returning
the executable SQL and the positional mappings. -/
def map_parameters (template_sql : String) (user_constants : List String) :
    String × List ParameterMapping :=
  mapParamsGo template_sql 1 user_constants

/-- The shared `LIMIT` guard of `TemplateService.validate_and_execute_template`
(lines 209–211) and `EnhancedAIService._execute_sql_safely` (lines 579–581):
append `LIMIT max_results` when the lowercased SQL does not contain the
substring `"limit"`. -/
def addLimitIfAbsent (sql : String) (maxResults : Int) : String :=
  if containsS "limit" (lowerS sql) then sql
  else sql ++ " LIMIT " ++ toString maxResults

/-- Embedding of `TemplateService.validate_and_execute_template` up to the
point where SQL is handed to the database: the parameters are mapped, the
safety check runs, the `LIMIT` guard is applied.  `some e` means the SQL
`e` is executed; `none` means execution was suppressed by the safety
check.  (The complexity check of lines 204–207 only logs a warning and is
omitted; database errors after submission do not change which SQL was
submitted.) -/
def validate_and_execute_template (parsedSelect : Bool) (template_raw_sql : String)
    (user_constants : List String) (max_results : Int) : Option String :=
  let executable := (map_parameters template_raw_sql user_constants).1
  if validate_sql_safety parsedSelect executable then
    some (addLimitIfAbsent executable max_results)
  else none

/-! ## `ai_service.py` — RAG path helpers -/

/-- Embedding of `EnhancedAIService._clean_generated_sql`: strip markdown
fences, strip whitespace, and truncate at the first `;` (stripping the
kept prefix again). -/
def clean_generated_sql (sql : String) : String :=
  let s1 := replaceS sql "```sql" ""
  let s2 := replaceS s1 "```" ""
  let s3 := stripL s2.data
  if s3.contains ';' then
    String.mk (stripL (s3.takeWhile (fun c => !(c == ';'))))
  else String.mk s3

/-- One attempt of `EnhancedAIService._generate_with_structured_rag`
(lines 433–448) after the model returned `generated_sql`: if the safety
check fails the attempt is skipped (`continue`), otherwise
`_execute_sql_safely` applies the `LIMIT` guard and submits the SQL.
`some e` is the SQL handed to the database, `none` means the candidate was
suppressed. -/
def rag_attempt_executed_sql (parsedSelect : Bool) (generated_sql : String)
    (max_results : Int) : Option String :=
  if validate_sql_safety parsedSelect generated_sql then
    some (addLimitIfAbsent generated_sql max_results)
  else none

/-! ## `sql_safety_validator.py` — `SQLSafetyValidator`

This class is defined in the sources but never imported by the pipeline;
its scoring logic is embedded for the claims that talk about it.  Python
floats are modelled by `ℚ`; the subtractions involved are exact decimals,
and the `≥ 0.7` comparison agrees with the float computation on all
reachable deduction combinations.  The `ValidationResult` severities
`UNSAFE`/`WARNING`/`SAFE` are rendered as `hard`/`soft`/`fine`. -/

inductive Severity : Type
  | hard
  | soft
  | fine
deriving Repr, DecidableEq

/-- Deduction one issue contributes in `_calculate_safety_score`:
`0.5` for an UNSAFE issue, `0.1` for a WARNING issue. -/
def issueDeduction : Severity → ℚ
  | Severity.hard => 1/2
  | Severity.soft => 1/10
  | Severity.fine => 0

/-- The `for issue in issues: base_score -= …` loop of
`_calculate_safety_score`. -/
def deductLoop (base : ℚ) : List Severity → ℚ
  | [] => base
  | s :: rest => deductLoop (base - issueDeduction s) rest

/-- The complexity deduction of `_calculate_safety_score`:
`0.2` above 20, else `0.1` above 10, else nothing. -/
def complexityDeduction (complexity : Int) : ℚ :=
  if complexity > 20 then 1/5 else if complexity > 10 then 1/10 else 0

/-- Embedding of `SQLSafetyValidator._calculate_safety_score`:
start at `1.0`, subtract per issue, subtract for complexity, clamp at 0. -/
def calculate_safety_score (issues : List Severity) (complexity : Int) : ℚ :=
  max 0 (deductLoop 1 issues - complexityDeduction complexity)

/-- Discriminator for UNSAFE issues (`issue.severity == ValidationResult.UNSAFE`). -/
def isHard : Severity → Bool
  | Severity.hard => true
  | _ => false

/-- Discriminator for WARNING issues. -/
def isSoft : Severity → Bool
  | Severity.soft => true
  | _ => false

/-- Is one of the issues UNSAFE? -/
def hasHardIssue (issues : List Severity) : Bool :=
  issues.any isHard

/-- Embedding of the verdict of `SQLSafetyValidator.validate_sql`
(lines 127–128): the accepted flag `is_safe` together with the overall
score.  `parseOk = false` stands for the `_create_unsafe_report` branches
(parse failure or validation exception), which return `is_safe = False`
and score `0.0`. -/
def validate_sql_verdict (parseOk : Bool) (issues : List Severity)
    (complexity : Int) : Bool × ℚ :=
  if parseOk then
    let score := calculate_safety_score issues complexity
    (decide (score ≥ 7/10) && !hasHardIssue issues, score)
  else (false, 0)

/-! ## `vector_search.py` — `VectorSearchEngine` -/

/-- Embedding of the dataclass `TemplateMatch`.  The similarity score
(a float produced by the pgvector cosine query) is modelled by `ℚ`. -/
structure TemplateMatch where
  template_id : Int
  canonical_sql : String
  raw_sql : String
  comment : String
  similarity_score : ℚ
  edit_distance : Option Nat := none
deriving Repr, DecidableEq

/-- Unit-cost Levenshtein distance on strings (model of
`Levenshtein.distance`). -/
def levDist (a b : String) : Nat :=
  levenshtein Levenshtein.defaultCost a.data b.data

/-- Embedding of `VectorSearchEngine.find_best_template_match` after the
retrieval step: `matches` is the list returned by
`search_similar_templates` (sorted ascending by cosine distance).  The
top candidate's edit distance against the lowercased inputs is blended
with the cosine similarity into a confidence, and the candidate is
returned iff the confidence reaches the threshold. -/
def find_best_template_match (retrieved : List TemplateMatch)
    (normalized_sql : String) (confidence_threshold : ℚ) : Option TemplateMatch :=
  match retrieved with
  | [] => none
  | best :: _ =>
    let d := levDist (lowerS normalized_sql) (lowerS best.canonical_sql)
    let maxLength := max normalized_sql.data.length best.canonical_sql.data.length
    let ratio : ℚ := if maxLength > 0 then 1 - (d : ℚ) / (maxLength : ℚ) else 0
    let confidence := best.similarity_score * (7/10) + ratio * (3/10)
    if confidence ≥ confidence_threshold then
      some { best with edit_distance := some d }
    else none

/-- The default value of the `confidence_threshold` parameter of
`find_best_template_match` (also the explicit value passed by
`EnhancedAIService._try_structured_template_matching`). -/
def defaultConfidenceThreshold : ℚ := 7/10

/-- Confidence exactly as the claim words it (for comparison with the
source): `0.7 · cosine_similarity + 0.3 · (1 − edit_distance / max_len)`
where the edit distance is taken between the query SQL and the
candidate's `canonical_sql` as given — without the lowercasing the
source applies. -/
def claimConfidenceC5 (m : TemplateMatch) (query_sql : String) : ℚ :=
  (7/10) * m.similarity_score +
    (3/10) * (1 - (levDist query_sql m.canonical_sql : ℚ) /
      ((max query_sql.data.length m.canonical_sql.data.length : Nat) : ℚ))

/-- Concrete retrieved candidate used to compare the source's confidence
with the claim's formula. -/
def sampleMatchA : TemplateMatch :=
  { template_id := 1, canonical_sql := "select a", raw_sql := "select a",
    comment := "", similarity_score := 4/5 }

/-- Template with a quoted ILIKE parameter position. -/
def ilikeQuotedTemplate : String :=
  "SELECT d.drg_description FROM drg_procedures d WHERE d.drg_description ILIKE '$1'"

/-- Template with a quoted LIKE parameter position. -/
def likeQuotedTemplate : String :=
  "SELECT p.provider_name FROM providers p WHERE p.provider_zip_code LIKE '$1'"

/-- Template with a bare equality parameter position on the textual
`drg_code` column. -/
def drgEqTemplate : String :=
  "SELECT pp.provider_id FROM provider_procedures pp WHERE pp.drg_code = $1"

/-- Template with a bare numeric comparison parameter position. -/
def dischargesTemplate : String :=
  "SELECT pp.provider_id FROM provider_procedures pp WHERE pp.total_discharges > $1"

/-- Lowercased template with an unquoted description ILIKE position, the
shape produced by the template seeds and recognized by the binder's
`d.drg_description ilike $n` context check. -/
def descIlikeTemplate : String :=
  "select d.drg_description from drg_procedures d where d.drg_description ilike $1"

/-! ## `structured_query_parser.py` — `StructuredQueryParser` -/

inductive QueryType : Type
  | cheapest_provider
  | highest_rated
  | cost_comparison
  | volume_analysis
deriving Repr, DecidableEq

/-- Embedding of the dataclass `StructuredQuery` — note its exact field
list: it carries no `degraded` marker of any kind. -/
structure StructuredQuery where
  query_type : QueryType
  procedure : Option String := none
  drg_code : Option String := none
  state : Option String := none
  city : Option String := none
  zip_code : Option String := none
  min_rating : Option ℚ := none
  max_cost : Option ℚ := none
  limit : Option Int := none
deriving Repr, DecidableEq

/-- The record built by `StructuredQuery(query_type=QueryType.CHEAPEST_PROVIDER)`,
returned on every failure path of `parse_query`. -/
def defaultStructuredQuery : StructuredQuery :=
  { query_type := QueryType.cheapest_provider }

/-- Python truthiness-aware `x or d` for an optional string. -/
def orElseStr (o : Option String) (d : String) : String :=
  match o with
  | some s => if s.isEmpty then d else s
  | none => d

/-- Python truthiness-aware `a or b` where both sides are optional strings. -/
def pyOrOpt (a b : Option String) : Option String :=
  match a with
  | some s => if s.isEmpty then b else some s
  | none => b

/-- Python truthiness-aware `x or d` for an optional integer (0 is falsy). -/
def pyOrInt (a : Option Int) (d : Int) : Int :=
  match a with
  | some n => if n == 0 then d else n
  | none => d

/-- Python truthiness-aware `x or d` for an optional rational (0 is falsy). -/
def pyOrRat (a : Option ℚ) (d : ℚ) : ℚ :=
  match a with
  | some q => if q == 0 then d else q
  | none => d

/-- Textual form of the rating constant `str(min_rating or 1)`.  (The
precise decimal rendering of CPython floats is not reproduced; no claim
depends on this text.) -/
def ratStr (q : ℚ) : String := toString q

/-- Embedding of `StructuredQueryParser._normalize_state`. -/
def normalize_state (state : String) : String :=
  let mapping : List (String × String) :=
    [("new york", "NY"), ("california", "CA"), ("florida", "FL"),
     ("texas", "TX"), ("illinois", "IL")]
  match mapping.lookup (lowerS state) with
  | some code => code
  | none => if state.data.length == 2 then upperS state else state

/-- The JSON object decoded from the function-call arguments
(`json.loads(function_call.arguments)`), with `query_type` still a raw
string. -/
structure IntentParams where
  query_type : String
  procedure : Option String := none
  drg_code : Option String := none
  state : Option String := none
  city : Option String := none
  zip_code : Option String := none
  min_rating : Option ℚ := none
  max_cost : Option ℚ := none
  limit : Option Int := none
deriving Repr, DecidableEq

/-- Outcome of the LLM round-trip inside `parse_query`: the API call or
`json.loads` raised (`error`), the response carried no suitable function
call (`noFunctionCall`), or arguments were decoded (`ok`). -/
inductive LLMParseOutcome : Type
  | error
  | noFunctionCall
  | ok (params : IntentParams)

/-- The `QueryType(params["query_type"])` enum constructor; `none` models
the `ValueError` raised on an unknown string (caught by the outer
`except`, which returns the default record). -/
def queryTypeOfString (s : String) : Option QueryType :=
  if s == "cheapest_provider" then some QueryType.cheapest_provider
  else if s == "highest_rated" then some QueryType.highest_rated
  else if s == "cost_comparison" then some QueryType.cost_comparison
  else if s == "volume_analysis" then some QueryType.volume_analysis
  else none

/-- State normalization applied only to a truthy state value
(`if params.get("state"): …`). -/
def normStateOpt (o : Option String) : Option String :=
  match o with
  | some s => if s.isEmpty then some s else some (normalize_state s)
  | none => none

/-- Embedding of `StructuredQueryParser.parse_query` as a function of the
LLM outcome: every failure path returns the default record; a decoded
parameter object is normalized (state mapping, limit defaulting) and
converted to a `StructuredQuery`. -/
def parse_query (outcome : LLMParseOutcome) : StructuredQuery :=
  match outcome with
  | LLMParseOutcome.error => defaultStructuredQuery
  | LLMParseOutcome.noFunctionCall => defaultStructuredQuery
  | LLMParseOutcome.ok params =>
    match queryTypeOfString params.query_type with
    | none => defaultStructuredQuery
    | some qt =>
      { query_type := qt
        procedure := params.procedure
        drg_code := params.drg_code
        state := normStateOpt params.state
        city := params.city
        zip_code := params.zip_code
        min_rating := params.min_rating
        max_cost := params.max_cost
        limit := some (pyOrInt params.limit 10) }

/-! ## `ai_service.py` — the parameter binder and the template path -/

/-- Database/LLM collaborators of `_extract_template_constants`, passed as
oracles: `drgCodeFromPhrase` models `drg_lookup.drg_code_from_phrase`
(`none` = no code found); `drgDescription` models the
`SELECT drg_description FROM drg_procedures WHERE drg_code = :code` lookup
(`none` = no row, or the query raised). -/
structure OracleDB where
  drgCodeFromPhrase : String → Option String
  drgDescription : String → Option String

/-- Number of regex matches of `\$\d+` in the template, the
`param_count` of `_extract_template_constants`: positions where `$` is
immediately followed by a digit. -/
def countPlaceholdersL : List Char → Nat
  | [] => 0
  | [_] => 0
  | a :: b :: rest =>
    (if a == '$' && b.isDigit then 1 else 0) + countPlaceholdersL (b :: rest)

def countParams (tmpl : String) : Nat := countPlaceholdersL tmpl.data

/-- The `param_positions` list: those `i` in `1..param_count` whose text
`$i` occurs in the (lowercased) template.  `List.range` produces them in
increasing order, matching the `sorted(...)` in the source. -/
def paramPositions (tmpl : String) : List Nat :=
  (((List.range (countParams tmpl)).map (fun n => n + 1))).filter
    (fun i => containsS ("$" ++ Nat.repr i) tmpl)

/-- One iteration of the `for param_num in sorted(param_positions)` loop of
`EnhancedAIService._extract_template_constants`: decide from the syntactic
context of `$pn` in the lowercased template which intent field to bind.
`none` models the `return []` aborts. -/
def extractConstantForParam (db : OracleDB) (sp : StructuredQuery)
    (tmpl : String) (pn : Nat) : Option String :=
  let ph := "$" ++ Nat.repr pn
  if containsS ("d.drg_description ilike " ++ ph) tmpl then
    let procedureTerm := orElseStr sp.procedure ""
    match db.drgCodeFromPhrase procedureTerm with
    | some code =>
      if code.isEmpty then some procedureTerm
      else
        match db.drgDescription code with
        | some desc => some desc
        | none => some procedureTerm
    | none => some procedureTerm
  else if containsS ("d.drg_code = " ++ ph) tmpl then
    match pyOrOpt sp.drg_code (db.drgCodeFromPhrase (orElseStr sp.procedure "")) with
    | some code => if code.isEmpty then none else some code
    | none => none
  else if containsS ("provider_state = " ++ ph) tmpl
      || containsS ("p.provider_state = " ++ ph) tmpl then
    let stateValue := orElseStr sp.state ""
    if stateValue.isEmpty && containsS "in a state" tmpl then none
    else some stateValue
  else if containsS ("provider_city ilike " ++ ph) tmpl
      || containsS ("p.provider_city ilike " ++ ph) tmpl then
    some (orElseStr sp.city "")
  else if containsS ("provider_zip_code like " ++ ph) tmpl then
    some (orElseStr sp.zip_code "")
  else if containsS ("limit " ++ ph) tmpl then
    some (toString (pyOrInt sp.limit 10))
  else if containsS ("overall_rating >= " ++ ph) tmpl then
    some (ratStr (pyOrRat sp.min_rating 1))
  else
    if pn == 1 && containsS "drg_description" tmpl then
      some (orElseStr sp.procedure "")
    else if pn == 2 && containsS "limit" tmpl && !containsS "provider_state" tmpl then
      some (toString (pyOrInt sp.limit 10))
    else if pn == 2 && containsS "provider_state" tmpl then
      some (orElseStr sp.state "")
    else if pn == 3 && containsS "limit" tmpl then
      some (toString (pyOrInt sp.limit 10))
    else none

/-- The binder loop: extract one constant per parameter position; any
abort aborts the whole extraction. -/
def extractLoop (db : OracleDB) (sp : StructuredQuery) (tmpl : String) :
    List Nat → Option (List String)
  | [] => some []
  | pn :: rest =>
    match extractConstantForParam db sp tmpl pn with
    | none => none
    | some c =>
      match extractLoop db sp tmpl rest with
      | none => none
      | some cs => some (c :: cs)

/-- Embedding of `EnhancedAIService._extract_template_constants`: bind the
intent fields to the template's placeholder positions in template order;
return `[]` (the Python abort value) when a required field is missing, a
position cannot be classified, or the final count check
`len(constants) != param_count` fires. -/
def extract_template_constants (db : OracleDB) (sp : StructuredQuery)
    (template_sql : String) : List String :=
  match extractLoop db sp (lowerS template_sql) (paramPositions (lowerS template_sql)) with
  | none => []
  | some cs => if cs.length ≠ countParams (lowerS template_sql) then [] else cs

/-- Observable outcome of
`EnhancedAIService._try_structured_template_matching` for a given matched
template (`none` = retrieval returned no match).  `executed` means the
pipeline proceeded from binding to execution: it carries the bound
constants and the SQL submitted to the database.  Every non-`executed`
outcome makes the method return `success=False`, upon which
`process_natural_language_query` proceeds to the RAG fallback. -/
inductive TemplatePathResult : Type
  | noTemplateMatch
  | noConstants
  | executed (constants : List String) (finalSql : String)
  | execSuppressed
deriving Repr, DecidableEq

/-- Embedding of the binding-and-execution part of
`_try_structured_template_matching` (lines 148–165): a matched template's
constants are extracted; an empty extraction is reported as failure
("Failed to extract template parameters"); otherwise
`validate_and_execute_template` runs with `max_results = limit or 100`. -/
def try_structured_template_matching (db : OracleDB) (parsedSelect : Bool)
    (template_match : Option String) (sp : StructuredQuery) : TemplatePathResult :=
  match template_match with
  | none => TemplatePathResult.noTemplateMatch
  | some raw_sql =>
    if (extract_template_constants db sp raw_sql).isEmpty then
      TemplatePathResult.noConstants
    else
      match validate_and_execute_template parsedSelect raw_sql
          (extract_template_constants db sp raw_sql) (pyOrInt sp.limit 100) with
      | some fsql =>
        TemplatePathResult.executed (extract_template_constants db sp raw_sql) fsql
      | none => TemplatePathResult.execSuppressed

end HCNav

namespace HCNav

theorem sanity_check_1 :
    basic_normalize "SELECT x FROM t WHERE b = 7 AND a = 'foo'" =
      ("select x from t where b = $2 and a = '$1'", ["foo", "7"]) := by decide

theorem sanity_check_2 :
    extract_and_replace_constants "SELECT x FROM t WHERE a = '$2'" =
      ("SELECT x FROM t WHERE a = '$1'", ["$2"]) := by decide

theorem sanity_check_3 : validate_sql_safety true "select dblink from providers" = true := by decide

theorem sanity_check_4 : validate_sql_safety true "select 1; drop table providers" = false := by decide

theorem sanity_check_5 :
    apply_additional_normalization "SELECT a FROM t ORDER BY a ASC" =
      "select a from t ORDER BY a" := by decide

theorem sanity_check_6 : determine_data_type "5" = "string" := by decide

theorem sanity_check_7 : determine_data_type "12345" = "integer" := by decide

theorem sanity_check_8 : determine_data_type "4.5" = "float" := by decide

theorem sanity_check_9 : determine_data_type "NY" = "string" := by decide

theorem sanity_check_10 :
    (map_parameters "SELECT x FROM t WHERE d ILIKE '$1' LIMIT $2" ["hip", "5"]).1 =
      "SELECT x FROM t WHERE d ILIKE '%hip%' LIMIT '5'" := by decide

theorem sanity_check_11 :
    clean_generated_sql "```sql\nSELECT a FROM providers; DROP TABLE x;```" =
      "SELECT a FROM providers" := by decide

theorem sanity_check_12 : levDist "select a" "select b" = 1 := by decide

theorem sanity_check_13 : normalize_state "new york" = "NY" := by decide

theorem sanity_check_14 : normalize_state "ca" = "CA" := by decide

theorem sanity_check_15 :
    calculate_safety_score [Severity.soft, Severity.soft] 12 = 7/10 := by
  norm_num [calculate_safety_score, deductLoop, issueDeduction, complexityDeduction]

theorem sanity_check_16 :
    extract_template_constants
      ⟨fun _ => some "470", fun _ => some "MAJOR HIP AND KNEE JOINT REPLACEMENT"⟩
      { query_type := QueryType.cheapest_provider, drg_code := some "470",
        limit := some 5 }
      "SELECT pp.provider_id FROM provider_procedures pp JOIN drg_procedures d ON d.drg_code = pp.drg_code WHERE d.drg_code = $1 LIMIT $2" =
      ["470", "5"] := by decide

theorem sanity_check_17 :
    try_structured_template_matching
      ⟨fun _ => some "470", fun _ => some "MAJOR HIP AND KNEE JOINT REPLACEMENT"⟩
      true
      (some "SELECT pp.provider_id FROM provider_procedures pp JOIN drg_procedures d ON d.drg_code = pp.drg_code WHERE d.drg_code = $1 LIMIT $2")
      { query_type := QueryType.cheapest_provider, drg_code := some "470",
        limit := some 5 } =
      TemplatePathResult.executed ["470", "5"]
        "SELECT pp.provider_id FROM provider_procedures pp JOIN drg_procedures d ON d.drg_code = pp.drg_code WHERE d.drg_code = '470' LIMIT '5'" := by
  decide

end HCNav

namespace HCNav

/-! ## Helper lemmas -/

theorem data_append (s t : String) : (s ++ t).data = s.data ++ t.data := rfl

theorem lowerL_append (a b : List Char) :
    lowerL (a ++ b) = lowerL a ++ lowerL b := List.map_append _ _ _

theorem containsL_append_right {p b : List Char} (h : containsL p b = true)
    (a : List Char) : containsL p (a ++ b) = true := by
  induction a with
  | nil => simpa using h
  | cons c cs ih =>
    rw [List.cons_append, containsL, ih, Bool.or_true]

theorem limit_infix (tail : List Char) :
    containsL "limit".data
      (' ' :: 'l' :: 'i' :: 'm' :: 'i' :: 't' :: ' ' :: tail) = true := rfl

theorem contains_limit_addLimit (sql : String) (n : Int) :
    containsS "limit" (lowerS (addLimitIfAbsent sql n)) = true := by
  unfold addLimitIfAbsent
  by_cases h : containsS "limit" (lowerS sql) = true
  · rw [if_pos h]; exact h
  · rw [if_neg h]
    show containsL "limit".data (lowerL ((sql ++ " LIMIT " ++ toString n).data)) = true
    have hd : (sql ++ " LIMIT " ++ toString n).data =
        sql.data ++ (" LIMIT ".data ++ (toString n).data) := by
      rw [data_append, data_append, List.append_assoc]
    rw [hd, lowerL_append]
    apply containsL_append_right
    rw [lowerL_append]
    have h2 : lowerL " LIMIT ".data = [' ', 'l', 'i', 'm', 'i', 't', ' '] := rfl
    rw [h2]
    simpa using limit_infix (lowerL (toString n).data)

theorem contains_eq_false_iff_not_mem {α : Type} [BEq α] [LawfulBEq α]
    (l : List α) (c : α) :
    l.contains c = false ↔ c ∉ l := by
  have h : l.contains c = true ↔ c ∈ l := List.elem_iff
  constructor
  · intro hf hm
    rw [h.mpr hm] at hf
    cases hf
  · intro hm
    cases hc : l.contains c with
    | false => rfl
    | true => exact absurd (h.mp hc) hm

theorem mem_of_mem_stripL {c : Char} {l : List Char} (h : c ∈ stripL l) : c ∈ l := by
  unfold stripL at h
  rw [List.mem_reverse] at h
  have h2 : c ∈ (l.dropWhile Char.isWhitespace).reverse :=
    List.Sublist.mem h (List.dropWhile_sublist _)
  rw [List.mem_reverse] at h2
  exact List.Sublist.mem h2 (List.dropWhile_sublist _)

theorem mem_of_mem_rstripSemi {c : Char} {l : List Char} (h : c ∈ rstripSemi l) :
    c ∈ l := by
  unfold rstripSemi at h
  rw [List.mem_reverse] at h
  have h2 := List.Sublist.mem h (List.dropWhile_sublist _)
  rw [List.mem_reverse] at h2
  exact h2

theorem semi_free_takeWhile (l : List Char) :
    (l.takeWhile (fun c => !(c == ';'))).contains ';' = false := by
  rw [contains_eq_false_iff_not_mem]
  intro hmem
  have h := List.mem_takeWhile_imp hmem
  simp at h

theorem hasSecondStatement_of_semi_free (e : String)
    (h : e.data.contains ';' = false) : hasSecondStatement e = false := by
  unfold hasSecondStatement
  rw [contains_eq_false_iff_not_mem] at h ⊢
  intro hm
  exact h (mem_of_mem_rstripSemi hm)

/-- Unfolding of the safety check into its three conditions. -/
theorem validate_sql_safety_eq_true (ps : Bool) (sql : String) :
    validate_sql_safety ps sql = true ↔
      ps = true ∧
      (∀ kw ∈ forbiddenKeywordsNormalizer, keywordHit sql kw = false) ∧
      hasSecondStatement sql = false := by
  unfold validate_sql_safety
  simp [List.all_eq_true, Bool.and_eq_true, Bool.not_eq_true']
  tauto

end HCNav

namespace HCNav

/-! ## Claim C1 -/

/-- C1 (amended): for every SQL string executed through the template path
(`TemplateService.validate_and_execute_template`) or the RAG path
(`EnhancedAIService._generate_with_structured_rag`), the safety check
`SQLNormalizer.validate_sql_safety` runs before execution, and the SQL is
not executed unless it parses as a single SELECT statement, contains none
of the eleven forbidden keywords `insert update delete drop truncate alter
create grant revoke copy execute` delimited by spaces in the lowercased
SQL, and contains no semicolon apart from trailing ones; a failing check
suppresses execution of that candidate. -/
theorem c1_safety_gate_amended (ps : Bool) (raw sqlRag : String)
    (cs : List String) (n : Int) :
    (∀ e, validate_and_execute_template ps raw cs n = some e →
      ps = true ∧
      (∀ kw ∈ forbiddenKeywordsNormalizer,
        keywordHit (map_parameters raw cs).1 kw = false) ∧
      hasSecondStatement (map_parameters raw cs).1 = false) ∧
    (∀ e, rag_attempt_executed_sql ps sqlRag n = some e →
      ps = true ∧
      (∀ kw ∈ forbiddenKeywordsNormalizer, keywordHit sqlRag kw = false) ∧
      hasSecondStatement sqlRag = false) ∧
    (validate_sql_safety ps (map_parameters raw cs).1 = false →
      validate_and_execute_template ps raw cs n = none) ∧
    (validate_sql_safety ps sqlRag = false →
      rag_attempt_executed_sql ps sqlRag n = none) := by
  refine ⟨?_, ?_, ?_, ?_⟩
  · intro e he
    unfold validate_and_execute_template at he
    by_cases hv : validate_sql_safety ps (map_parameters raw cs).1 = true
    · exact (validate_sql_safety_eq_true _ _).mp hv
    · rw [if_neg hv] at he
      cases he
  · intro e he
    unfold rag_attempt_executed_sql at he
    by_cases hv : validate_sql_safety ps sqlRag = true
    · exact (validate_sql_safety_eq_true _ _).mp hv
    · rw [if_neg hv] at he
      cases he
  · intro hv
    unfold validate_and_execute_template
    rw [if_neg (by rw [hv]; exact Bool.false_ne_true)]
  · intro hv
    unfold rag_attempt_executed_sql
    rw [if_neg (by rw [hv]; exact Bool.false_ne_true)]

/-- C1 witness: a concrete template-path run in which the theorem's
hypotheses hold and the execution gate fires. -/
theorem c1_safety_gate_witness :
    (∀ kw ∈ forbiddenKeywordsNormalizer,
      keywordHit
        (map_parameters "SELECT provider_name FROM providers LIMIT $1" ["5"]).1
        kw = false) ∧
    hasSecondStatement
      (map_parameters "SELECT provider_name FROM providers LIMIT $1" ["5"]).1 = false :=
  ((c1_safety_gate_amended true "SELECT provider_name FROM providers LIMIT $1"
      "select 1" ["5"] 100).1
    "SELECT provider_name FROM providers LIMIT '5'" (by decide)).2

/-- C1 counterexample: the claim's forbidden list (which includes `dblink`
as a whole word) is not enforced by the executed paths.  The SQL
`select dblink from providers` parses as a single SELECT (with `dblink` as
a plain column identifier, so the parse oracle is `true`), contains the
claimed forbidden keyword `dblink` as a whole word, yet the RAG path
executes it. -/
theorem c1_forbidden_list_counterexample :
    rag_attempt_executed_sql true "select dblink from providers" 100 =
      some "select dblink from providers LIMIT 100" ∧
    keywordHit "select dblink from providers" "dblink" = true := by decide

/-! ## Claim C2 -/

/-- C2: `SQLSafetyValidator.validate_sql` starts the score at 1.0,
subtracts 0.5 per UNSAFE issue and 0.1 per WARNING issue, subtracts 0.2
if the complexity exceeds 20 and otherwise 0.1 if it exceeds 10; the
query is accepted iff there is no UNSAFE issue and the score is at least
0.7; the score always lies in [0, 1].  (`parseOk = false` covers the
`_create_unsafe_report` branches, which return score 0.) -/
theorem c2_safety_score_spec (parseOk : Bool) (issues : List Severity)
    (complexity : Int) :
    0 ≤ (validate_sql_verdict parseOk issues complexity).2 ∧
    (validate_sql_verdict parseOk issues complexity).2 ≤ 1 ∧
    (parseOk = true →
      (validate_sql_verdict parseOk issues complexity).2 =
        max 0 (1 - ((issues.filter isHard).length : ℚ) * (1/2)
          - ((issues.filter isSoft).length : ℚ) * (1/10)
          - complexityDeduction complexity)) ∧
    ((validate_sql_verdict parseOk issues complexity).1 = true ↔
      parseOk = true ∧ hasHardIssue issues = false ∧
        (validate_sql_verdict parseOk issues complexity).2 ≥ 7/10) := by
  have hded : ∀ b : ℚ, deductLoop b issues =
      b - ((issues.filter isHard).length : ℚ) * (1/2)
        - ((issues.filter isSoft).length : ℚ) * (1/10) := by
    induction issues with
    | nil => intro b; simp [deductLoop]
    | cons s rest ih =>
      intro b
      cases s <;>
        simp [deductLoop, issueDeduction, ih, List.filter_cons, isHard, isSoft] <;>
        ring
  have hcompl : 0 ≤ complexityDeduction complexity := by
    unfold complexityDeduction
    split
    · norm_num
    · split <;> norm_num
  have hscore : calculate_safety_score issues complexity =
      max 0 (1 - ((issues.filter isHard).length : ℚ) * (1/2)
        - ((issues.filter isSoft).length : ℚ) * (1/10)
        - complexityDeduction complexity) := by
    unfold calculate_safety_score
    rw [hded 1]
  cases parseOk with
  | false =>
    refine ⟨by norm_num [validate_sql_verdict], by norm_num [validate_sql_verdict], ?_, ?_⟩
    · intro h; cases h
    · simp [validate_sql_verdict]
  | true =>
    have h2 : (validate_sql_verdict true issues complexity).2 =
        calculate_safety_score issues complexity := by
      simp [validate_sql_verdict]
    refine ⟨?_, ?_, fun _ => by rw [h2, hscore], ?_⟩
    · rw [h2]; unfold calculate_safety_score; exact le_max_left _ _
    · rw [h2, hscore]
      apply max_le (by norm_num)
      have h3 : (0 : ℚ) ≤ ((issues.filter isHard).length : ℚ) * (1/2) := by positivity
      have h4 : (0 : ℚ) ≤ ((issues.filter isSoft).length : ℚ) * (1/10) := by positivity
      linarith
    · simp [validate_sql_verdict, Bool.and_eq_true, decide_eq_true_eq,
        Bool.not_eq_true']
      tauto

/-! ## Claim C3 -/

/-- C3: if the number of constants the binder produces does not equal the
template's placeholder count, `_extract_template_constants` aborts with
`[]` and the orchestrator reports `noConstants` (a non-match, so
`process_natural_language_query` proceeds to the RAG fallback);
conversely, whenever the template path proceeds from binding to
execution, the number of emitted constants equals the placeholder count
of the matched template. -/
theorem c3_binder_totality (db : OracleDB) (sp : StructuredQuery) (ps : Bool)
    (raw : String) :
    (∀ cs, extractLoop db sp (lowerS raw) (paramPositions (lowerS raw)) = some cs →
      cs.length ≠ countParams (lowerS raw) →
      extract_template_constants db sp raw = [] ∧
      try_structured_template_matching db ps (some raw) sp =
        TemplatePathResult.noConstants) ∧
    (∀ cs fsql,
      try_structured_template_matching db ps (some raw) sp =
        TemplatePathResult.executed cs fsql →
      cs.length = countParams (lowerS raw)) := by
  constructor
  · intro cs hloop hne
    have h1 : extract_template_constants db sp raw = [] := by
      have he : extract_template_constants db sp raw =
          (if cs.length ≠ countParams (lowerS raw) then [] else cs) := by
        unfold extract_template_constants
        rw [hloop]
      rw [he, if_pos hne]
    refine ⟨h1, ?_⟩
    simp [try_structured_template_matching, h1]
  · intro cs fsql h
    have h' : (if (extract_template_constants db sp raw).isEmpty = true then
          TemplatePathResult.noConstants
        else
          match validate_and_execute_template ps raw
              (extract_template_constants db sp raw) (pyOrInt sp.limit 100) with
          | some fsql =>
            TemplatePathResult.executed (extract_template_constants db sp raw) fsql
          | none => TemplatePathResult.execSuppressed) =
        TemplatePathResult.executed cs fsql := h
    by_cases he : (extract_template_constants db sp raw).isEmpty = true
    · rw [if_pos he] at h'
      cases h'
    · rw [if_neg he] at h'
      have hlen : (extract_template_constants db sp raw).length =
          countParams (lowerS raw) := by
        revert he
        unfold extract_template_constants
        cases hl : extractLoop db sp (lowerS raw) (paramPositions (lowerS raw)) with
        | none => intro he; simp at he
        | some cs' =>
          have hred : (match some cs' with
              | none => ([] : List String)
              | some cs => if cs.length ≠ countParams (lowerS raw) then [] else cs) =
              (if cs'.length ≠ countParams (lowerS raw) then [] else cs') := rfl
          rw [hred]
          by_cases hlen' : cs'.length ≠ countParams (lowerS raw)
          · rw [if_pos hlen']
            intro he; simp at he
          · rw [if_neg hlen']
            intro _
            exact not_ne_iff.mp hlen'
      cases hv : validate_and_execute_template ps raw
          (extract_template_constants db sp raw) (pyOrInt sp.limit 100) with
      | none => rw [hv] at h'; cases h'
      | some f =>
        rw [hv] at h'
        cases h'
        exact hlen

/-- C3 witness: a concrete matched template with two placeholders for
which binding emits exactly two constants and the pipeline proceeds to
execution. -/
theorem c3_binder_totality_witness :
    try_structured_template_matching
      ⟨fun _ => some "470", fun _ => some "MAJOR HIP AND KNEE JOINT REPLACEMENT"⟩
      true
      (some "SELECT pp.provider_id FROM provider_procedures pp JOIN drg_procedures d ON d.drg_code = pp.drg_code WHERE d.drg_code = $1 LIMIT $2")
      { query_type := QueryType.cheapest_provider, drg_code := some "470",
        limit := some 5 } =
      TemplatePathResult.executed ["470", "5"]
        "SELECT pp.provider_id FROM provider_procedures pp JOIN drg_procedures d ON d.drg_code = pp.drg_code WHERE d.drg_code = '470' LIMIT '5'" ∧
    (["470", "5"] : List String).length =
      countParams (lowerS "SELECT pp.provider_id FROM provider_procedures pp JOIN drg_procedures d ON d.drg_code = pp.drg_code WHERE d.drg_code = $1 LIMIT $2") := by
  constructor
  · decide
  · exact
      (c3_binder_totality
        ⟨fun _ => some "470", fun _ => some "MAJOR HIP AND KNEE JOINT REPLACEMENT"⟩
        { query_type := QueryType.cheapest_provider, drg_code := some "470",
          limit := some 5 }
        true
        "SELECT pp.provider_id FROM provider_procedures pp JOIN drg_procedures d ON d.drg_code = pp.drg_code WHERE d.drg_code = $1 LIMIT $2").2
      ["470", "5"]
      "SELECT pp.provider_id FROM provider_procedures pp JOIN drg_procedures d ON d.drg_code = pp.drg_code WHERE d.drg_code = '470' LIMIT '5'"
      (by decide)

end HCNav

namespace HCNav

/-! ## Claim C7 -/

/-- C7 (failing input, code bug): `_extract_and_replace_constants` does
not preserve quoted pre-existing placeholders.  In
`SELECT x FROM t WHERE a = '$2'` the quoted placeholder `'$2'` is matched
as an ordinary string literal, renumbered to `'$1'`, and `$2` is recorded
as an extracted constant — a double parameterization.  Bare numeric
placeholders are preserved by the lookbehind (second conjunct), but new
literals are numbered without regard to them. -/
theorem c7_placeholder_renumbering :
    extract_and_replace_constants "SELECT x FROM t WHERE a = '$2'" =
      ("SELECT x FROM t WHERE a = '$1'", ["$2"]) ∧
    extract_and_replace_constants "SELECT x FROM t WHERE a = $2 AND b = 7" =
      ("SELECT x FROM t WHERE a = $2 AND b = $1", ["7"]) := by decide

/-! ## Claim C8 -/

/-- C8 (amended): for every candidate SQL about to be executed (template
path and RAG path alike), if the lowercased SQL does not contain the
substring `"limit"` then `LIMIT max_rows` is appended before execution;
hence every executed SQL contains the substring `"limit"`
(case-insensitively).  The check is a substring check, not a check for a
`LIMIT` clause. -/
theorem c8_limit_guard_amended (ps : Bool) (raw sqlRag : String)
    (cs : List String) (n : Int) :
    (∀ e, validate_and_execute_template ps raw cs n = some e →
      containsS "limit" (lowerS e) = true) ∧
    (∀ e, rag_attempt_executed_sql ps sqlRag n = some e →
      containsS "limit" (lowerS e) = true) := by
  constructor
  · intro e he
    unfold validate_and_execute_template at he
    by_cases hv : validate_sql_safety ps (map_parameters raw cs).1 = true
    · rw [if_pos hv] at he
      cases he
      exact contains_limit_addLimit _ n
    · rw [if_neg hv] at he
      cases he
  · intro e he
    unfold rag_attempt_executed_sql at he
    by_cases hv : validate_sql_safety ps sqlRag = true
    · rw [if_pos hv] at he
      cases he
      exact contains_limit_addLimit _ n
    · rw [if_neg hv] at he
      cases he

/-- C8 witness: a concrete RAG candidate without a LIMIT gets one
appended; the theorem applies to it. -/
theorem c8_limit_guard_witness :
    rag_attempt_executed_sql true "select provider_name from providers" 50 =
      some "select provider_name from providers LIMIT 50" ∧
    containsS "limit"
      (lowerS "select provider_name from providers LIMIT 50") = true := by
  refine ⟨by decide, ?_⟩
  exact (c8_limit_guard_amended true "x" "select provider_name from providers"
      [] 50).2
    "select provider_name from providers LIMIT 50" (by decide)

/-- C8 counterexample: the claim as stated ("if the SQL contains no LIMIT
clause then a LIMIT clause is appended, so every executed SQL contains a
LIMIT") is false: `select rate_limit from providers` has no `limit`
token (hence no LIMIT clause), but because `"limit"` occurs inside the
identifier `rate_limit`, the guard does not append anything and the SQL
is executed without any LIMIT. -/
theorem c8_substring_counterexample :
    validate_and_execute_template true "select rate_limit from providers" [] 100 =
      some "select rate_limit from providers" ∧
    keywordHit "select rate_limit from providers" "limit" = false := by decide

/-! ## Claim C9 -/

/-- C9 (failing input, code bug): on LLM failure (or a response without
the expected function call) `parse_query` returns the default
`StructuredQuery(query_type=CHEAPEST_PROVIDER)` — but nothing is marked
`degraded`: the returned record (whose complete field list is spelled out
in the last conjunct) carries no degraded flag of any kind. -/
theorem c9_parse_query_default :
    parse_query LLMParseOutcome.error = defaultStructuredQuery ∧
    parse_query LLMParseOutcome.noFunctionCall = defaultStructuredQuery ∧
    defaultStructuredQuery.query_type = QueryType.cheapest_provider ∧
    defaultStructuredQuery =
      { query_type := QueryType.cheapest_provider, procedure := none,
        drg_code := none, state := none, city := none, zip_code := none,
        min_rating := none, max_cost := none, limit := none } :=
  ⟨rfl, rfl, rfl, rfl⟩

/-! ## Claim C10 -/

/-- C10: for every LLM-generated SQL string, `_clean_generated_sql` first
strips markdown fences and surrounding whitespace; if the result contains
a semicolon it is truncated to the (re-stripped) text before the first
semicolon.  The cleaned output never contains a semicolon, so the
multi-statement check of the safety validator cannot fire on it. -/
theorem c10_clean_semicolon (s : String) :
    (clean_generated_sql s).data.contains ';' = false ∧
    hasSecondStatement (clean_generated_sql s) = false ∧
    ((stripL (replaceS (replaceS s "```sql" "") "```" "").data).contains ';' = true →
      clean_generated_sql s =
        String.mk (stripL
          ((stripL (replaceS (replaceS s "```sql" "") "```" "").data).takeWhile
            (fun c => !(c == ';'))))) := by
  have hmain : clean_generated_sql s =
      (if (stripL (replaceS (replaceS s "```sql" "") "```" "").data).contains ';' then
        String.mk (stripL
          ((stripL (replaceS (replaceS s "```sql" "") "```" "").data).takeWhile
            (fun c => !(c == ';'))))
      else String.mk (stripL (replaceS (replaceS s "```sql" "") "```" "").data)) := rfl
  have hfree : (clean_generated_sql s).data.contains ';' = false := by
    rw [hmain]
    by_cases h : (stripL (replaceS (replaceS s "```sql" "") "```" "").data).contains ';' = true
    · rw [if_pos h]
      rw [contains_eq_false_iff_not_mem]
      intro hm
      have hm2 := mem_of_mem_stripL hm
      have := List.mem_takeWhile_imp hm2
      simp at this
    · rw [if_neg h]
      exact Bool.not_eq_true _ ▸ (Bool.eq_false_iff.mpr (fun hc => h hc))
  refine ⟨hfree, hasSecondStatement_of_semi_free _ hfree, ?_⟩
  intro h
  rw [hmain, if_pos h]

/-- C10 witness: a fenced, two-statement generation is reduced to its
first statement. -/
theorem c10_clean_semicolon_witness :
    (stripL (replaceS (replaceS "```sql\nSELECT a FROM providers; DROP TABLE x;```"
        "```sql" "") "```" "").data).contains ';' = true ∧
    clean_generated_sql "```sql\nSELECT a FROM providers; DROP TABLE x;```" =
      "SELECT a FROM providers" := by
  refine ⟨by decide, ?_⟩
  have h := (c10_clean_semicolon "```sql\nSELECT a FROM providers; DROP TABLE x;```").2.2
    (by decide)
  rw [h]
  decide

end HCNav

namespace HCNav

/-- Unfolding of `find_best_template_match` on a non-empty retrieval list
with a positive maximal length. -/
theorem find_best_match_cons (best : TemplateMatch) (rest : List TemplateMatch)
    (sql : String) (thr : ℚ)
    (hlen : 0 < max sql.data.length best.canonical_sql.data.length) :
    find_best_template_match (best :: rest) sql thr =
      (if (7/10) * best.similarity_score +
          (3/10) * (1 - (levDist (lowerS sql) (lowerS best.canonical_sql) : ℚ) /
            ((max sql.data.length best.canonical_sql.data.length : Nat) : ℚ)) ≥ thr then
        some { best with
          edit_distance := some (levDist (lowerS sql) (lowerS best.canonical_sql)) }
      else none) := by
  have harith : best.similarity_score * (7/10) +
      (1 - (levDist (lowerS sql) (lowerS best.canonical_sql) : ℚ) /
        ((max sql.data.length best.canonical_sql.data.length : Nat) : ℚ)) * (3/10) =
      (7/10) * best.similarity_score +
      (3/10) * (1 - (levDist (lowerS sql) (lowerS best.canonical_sql) : ℚ) /
        ((max sql.data.length best.canonical_sql.data.length : Nat) : ℚ)) := by ring
  simp only [find_best_template_match]
  rw [if_pos hlen, harith]

/-! ## Claim C5 -/

/-- C5 (amended): `find_best_template_match` computes, for the top
retrieved candidate, `confidence = 0.7 · cosine_similarity +
0.3 · (1 − edit_distance / max_len)` where the edit distance is the
Levenshtein distance between the *lowercased* query SQL and the
candidate's *lowercased* `canonical_sql`, and `max_len` is the greater of
their lengths (assumed positive); it returns that candidate (with the
edit distance recorded) iff the confidence is at least the confidence
threshold, and otherwise no match. -/
theorem c5_best_match_amended (best : TemplateMatch) (rest : List TemplateMatch)
    (sql : String) (thr : ℚ)
    (hlen : 0 < max sql.data.length best.canonical_sql.data.length) :
    (find_best_template_match (best :: rest) sql thr =
        some { best with
          edit_distance := some (levDist (lowerS sql) (lowerS best.canonical_sql)) } ↔
      (7/10) * best.similarity_score +
        (3/10) * (1 - (levDist (lowerS sql) (lowerS best.canonical_sql) : ℚ) /
          ((max sql.data.length best.canonical_sql.data.length : Nat) : ℚ)) ≥ thr) ∧
    ((7/10) * best.similarity_score +
        (3/10) * (1 - (levDist (lowerS sql) (lowerS best.canonical_sql) : ℚ) /
          ((max sql.data.length best.canonical_sql.data.length : Nat) : ℚ)) < thr →
      find_best_template_match (best :: rest) sql thr = none) := by
  rw [find_best_match_cons best rest sql thr hlen]
  by_cases hc : (7/10) * best.similarity_score +
      (3/10) * (1 - (levDist (lowerS sql) (lowerS best.canonical_sql) : ℚ) /
        ((max sql.data.length best.canonical_sql.data.length : Nat) : ℚ)) ≥ thr
  · rw [if_pos hc]
    exact ⟨⟨fun _ => hc, fun _ => rfl⟩, fun hlt => absurd hc (not_le.mpr hlt)⟩
  · rw [if_neg hc]
    exact ⟨⟨fun hsome => Option.noConfusion hsome, fun hc' => absurd hc' hc⟩,
      fun _ => rfl⟩

/-- C5 witness: a retrieved candidate identical to the query (distance 0,
similarity 0.9) is returned at the default threshold 0.7. -/
theorem c5_best_match_amended_witness :
    (0 : Nat) < max ("select 1" : String).data.length ("select 1" : String).data.length ∧
    find_best_template_match
      [{ template_id := 2, canonical_sql := "select 1", raw_sql := "select 1",
         comment := "", similarity_score := 9/10 }] "select 1" (7/10) =
      some { template_id := 2, canonical_sql := "select 1", raw_sql := "select 1",
             comment := "", similarity_score := 9/10, edit_distance := some 0 } := by
  refine ⟨by decide, ?_⟩
  have h := (c5_best_match_amended
      { template_id := 2, canonical_sql := "select 1", raw_sql := "select 1",
        comment := "", similarity_score := 9/10 } [] "select 1" (7/10)
      (by decide)).1
  have hd : levDist (lowerS "select 1") (lowerS "select 1") = 0 := by decide
  have hm : max ("select 1" : String).data.length
      (({ template_id := 2, canonical_sql := "select 1", raw_sql := "select 1",
          comment := "", similarity_score := 9/10 } : TemplateMatch).canonical_sql).data.length
      = 8 := by decide
  have h2 := h.mpr (by rw [hd, hm]; norm_num)
  rw [hd] at h2
  exact h2

/-- C5 counterexample: the claim computes the edit distance on the raw
strings, the source on lowercased copies.  For query `SELECT A` and the
candidate `sampleMatchA` (canonical SQL `select a`, cosine similarity
0.8) the source's confidence is `0.56 + 0.3 = 0.86 ≥ 0.7` and the
candidate is returned, while the claim's formula gives
`0.56 + 0.3·(1 − 7/8) = 0.5975 < 0.7`, i.e. the claim says no match is
returned. -/
theorem c5_lowercase_counterexample :
    find_best_template_match [sampleMatchA] "SELECT A" (7/10) =
      some { sampleMatchA with edit_distance := some 0 } ∧
    claimConfidenceC5 sampleMatchA "SELECT A" < 7/10 := by
  constructor
  · rw [find_best_match_cons _ _ _ _ (by decide)]
    have hd : levDist (lowerS "SELECT A") (lowerS sampleMatchA.canonical_sql) = 0 := by
      decide
    have hm : max ("SELECT A" : String).data.length
        sampleMatchA.canonical_sql.data.length = 8 := by decide
    rw [hd, hm]
    rw [if_pos (by norm_num [sampleMatchA])]
  · have hd : levDist "SELECT A" sampleMatchA.canonical_sql = 7 := by decide
    have hm : max ("SELECT A" : String).data.length
        sampleMatchA.canonical_sql.data.length = 8 := by decide
    unfold claimConfidenceC5
    rw [hd, hm]
    norm_num [sampleMatchA]

end HCNav

namespace HCNav

/-! ## Character-class lemmas for the data-type analysis -/

theorem contains_eq_true_iff_mem {α : Type} [BEq α] [LawfulBEq α]
    (l : List α) (a : α) : l.contains a = true ↔ a ∈ l := List.elem_iff

theorem char_toLower_digit {c : Char} (h : c.isDigit = true) :
    Char.toLower c = c := by
  have h' := h
  simp only [Char.isDigit, Bool.and_eq_true, decide_eq_true_eq] at h'
  obtain ⟨h1, h2⟩ := h'
  have h2' : c.val.toNat ≤ 57 := UInt32.toNat_le_of_le (by norm_num [UInt32.size]) h2
  unfold Char.toLower
  rw [if_neg]
  intro hcon
  have h65 : (65 : Nat) ≤ Char.toNat c := hcon.1
  have heq : Char.toNat c = c.val.toNat := rfl
  rw [heq] at h65
  omega

theorem digit_not_ws {d : Char} (h : d.isDigit = true) :
    d.isWhitespace = false := by
  cases hw : d.isWhitespace with
  | false => rfl
  | true =>
    simp only [Char.isWhitespace, Bool.or_eq_true, decide_eq_true_eq] at hw
    rcases hw with ((h' | h') | h') | h' <;> subst h' <;> exact absurd h (by decide)

theorem isDigitStr_parts {c : String} (hd : isDigitStr c = true) :
    c.data ≠ [] ∧ ∀ d ∈ c.data, d.isDigit = true := by
  unfold isDigitStr at hd
  rw [Bool.and_eq_true] at hd
  obtain ⟨h1, h2⟩ := hd
  rw [Bool.not_eq_true'] at h1
  refine ⟨?_, List.all_eq_true.mp h2⟩
  intro hnil
  rw [hnil] at h1
  cases h1

theorem lowerL_digits {l : List Char} (h : ∀ d ∈ l, d.isDigit = true) :
    lowerL l = l := by
  unfold lowerL
  induction l with
  | nil => rfl
  | cons a as ih =>
    rw [List.map_cons, char_toLower_digit (h a (by simp)),
      ih (fun d hd => h d (by simp [hd]))]

theorem lowerS_digits {c : String} (hd : isDigitStr c = true) : lowerS c = c := by
  unfold lowerS
  rw [lowerL_digits (isDigitStr_parts hd).2]

theorem digit_string_not_boolword {c : String} (hd : isDigitStr c = true) :
    ([("true" : String), "false", "t", "f"].contains c) = false := by
  rw [contains_eq_false_iff_not_mem]
  intro hmem
  have hall := (isDigitStr_parts hd).2
  simp only [List.mem_cons, List.not_mem_nil, or_false] at hmem
  rcases hmem with h | h | h | h <;> subst h
  · exact absurd (hall 't' (by decide)) (by decide)
  · exact absurd (hall 'f' (by decide)) (by decide)
  · exact absurd (hall 't' (by decide)) (by decide)
  · exact absurd (hall 'f' (by decide)) (by decide)

theorem stripL_digits {l : List Char} (h : ∀ d ∈ l, d.isDigit = true) :
    stripL l = l := by
  unfold stripL
  have h1 : l.dropWhile Char.isWhitespace = l := by
    cases l with
    | nil => rfl
    | cons a as =>
      rw [List.dropWhile_cons, if_neg]
      rw [digit_not_ws (h a (by simp))]
      exact Bool.false_ne_true
  rw [h1]
  have h2 : l.reverse.dropWhile Char.isWhitespace = l.reverse := by
    cases hr : l.reverse with
    | nil => rfl
    | cons a as =>
      rw [List.dropWhile_cons, if_neg]
      have ha : a ∈ l := by
        rw [← List.mem_reverse, hr]
        simp
      rw [digit_not_ws (h a ha)]
      exact Bool.false_ne_true
  rw [h2, List.reverse_reverse]

theorem stripSign_digits {l : List Char} (hne : l ≠ [])
    (h : ∀ d ∈ l, d.isDigit = true) : stripSign l = l := by
  unfold stripSign
  cases l with
  | nil => exact absurd rfl hne
  | cons a as =>
    have hred : (match a :: as with
        | c :: cs => if (c == '+' || c == '-') = true then cs else c :: cs
        | [] => ([] : List Char)) =
        (if (a == '+' || a == '-') = true then as else a :: as) := rfl
    rw [hred, if_neg]
    intro hcon
    rw [Bool.or_eq_true] at hcon
    rcases hcon with h' | h'
    · have ha : a = '+' := by simpa using h'
      subst ha
      exact absurd (h '+' (by simp)) (by decide)
    · have ha : a = '-' := by simpa using h'
      subst ha
      exact absurd (h '-' (by simp)) (by decide)

theorem intParsable_digits {c : String} (hd : isDigitStr c = true) :
    intParsable c = true := by
  obtain ⟨hne, hall⟩ := isDigitStr_parts hd
  unfold intParsable
  rw [stripL_digits hall, stripSign_digits hne hall]
  simp only [Bool.and_eq_true, Bool.not_eq_true', List.all_eq_true]
  constructor
  · cases hl : c.data with
    | nil => exact absurd hl hne
    | cons a as => rfl
  · exact hall

theorem dot_not_in_digits {c : String} (hd : isDigitStr c = true) :
    c.data.contains '.' = false := by
  rw [contains_eq_false_iff_not_mem]
  intro hm
  exact absurd ((isDigitStr_parts hd).2 '.' hm) (by decide)

/-- A non-empty all-digit string of at most four characters is typed
`"string"` by `_determine_data_type` (the DRG-code special case). -/
theorem determine_data_type_digit_le4 {c : String} (hd : isDigitStr c = true)
    (hlen : c.data.length ≤ 4) : determine_data_type c = "string" := by
  unfold determine_data_type
  rw [lowerS_digits hd]
  rw [if_neg (by rw [digit_string_not_boolword hd]; exact Bool.false_ne_true)]
  rw [if_pos (by rw [hd]; simpa using hlen)]

/-- A non-empty all-digit string of more than four characters is typed
`"integer"`. -/
theorem determine_data_type_digit_gt4 {c : String} (hd : isDigitStr c = true)
    (hlen : 4 < c.data.length) : determine_data_type c = "integer" := by
  unfold determine_data_type
  rw [lowerS_digits hd]
  rw [if_neg (by rw [digit_string_not_boolword hd]; exact Bool.false_ne_true)]
  rw [if_neg (by
    rw [hd]
    simp only [Bool.true_and, decide_eq_true_eq]
    omega)]
  rw [if_neg (by rw [dot_not_in_digits hd]; exact Bool.false_ne_true)]
  rw [if_pos (by rw [intParsable_digits hd])]
  rw [if_pos (by simpa using hlen)]

end HCNav

namespace HCNav

theorem string_eq_of_data (u v : String) (h : u.data = v.data) : u = v := by
  cases u
  cases v
  exact congrArg String.mk (by simpa using h)

/-! ## Claim C4 -/

/-- C4 (amended): when `TemplateService.map_parameters` emits executable
SQL: a `$n` placeholder in a *quoted* ILIKE position (`ILIKE '$n'`) or
quoted LIKE position is replaced by the constant wrapped as `'%value%'`
(with percent signs first stripped from the constant); all-digit
constants of more than four characters are emitted unquoted, while
all-digit constants of at most four characters — DRG codes, whose column
is textual — are emitted quoted as string literals; and the binder
passes constants bare (the looked-up DRG description is emitted without
wildcards), wrapping happening only at emission. -/
theorem c4_emission_amended (c : String) (db : OracleDB) (sp : StructuredQuery)
    (code desc : String) :
    ((isDigitStr c = true → c.data.length ≤ 4 → determine_data_type c = "string") ∧
     (isDigitStr c = true → 4 < c.data.length → determine_data_type c = "integer")) ∧
    (map_parameters ilikeQuotedTemplate [c]).1 =
      "SELECT d.drg_description FROM drg_procedures d WHERE d.drg_description ILIKE '%" ++
        String.mk (stripPercentL c.data) ++ "%'" ∧
    (map_parameters likeQuotedTemplate [c]).1 =
      "SELECT p.provider_name FROM providers p WHERE p.provider_zip_code LIKE '%" ++
        String.mk (stripPercentL c.data) ++ "%'" ∧
    (isDigitStr c = true → c.data.length ≤ 4 →
      (map_parameters drgEqTemplate [c]).1 =
        "SELECT pp.provider_id FROM provider_procedures pp WHERE pp.drg_code = '" ++
          c ++ "'") ∧
    (isDigitStr c = true → 4 < c.data.length →
      (map_parameters dischargesTemplate [c]).1 =
        "SELECT pp.provider_id FROM provider_procedures pp WHERE pp.total_discharges > " ++
          c) ∧
    (db.drgCodeFromPhrase (orElseStr sp.procedure "") = some code →
      code.isEmpty = false → db.drgDescription code = some desc →
      extractConstantForParam db sp descIlikeTemplate 1 = some desc) := by
  refine ⟨⟨fun hd hlen => determine_data_type_digit_le4 hd hlen,
    fun hd hlen => determine_data_type_digit_gt4 hd hlen⟩, ?_, ?_, ?_, ?_, ?_⟩
  · apply string_eq_of_data
    simp [map_parameters, mapParamsGo, mapParamStep, ilikeQuotedTemplate,
      containsS, containsL, startsWithL, replaceS, replaceAllL, data_append,
      Nat.repr, Nat.toDigits, Nat.toDigitsCore, Nat.digitChar,
      show ("$" : String) ++ Nat.repr 1 = "$1" from rfl]
  · apply string_eq_of_data
    simp [map_parameters, mapParamsGo, mapParamStep, likeQuotedTemplate,
      containsS, containsL, startsWithL, replaceS, replaceAllL, data_append,
      Nat.repr, Nat.toDigits, Nat.toDigitsCore, Nat.digitChar,
      show ("$" : String) ++ Nat.repr 1 = "$1" from rfl]
  · intro hd hlen
    have hdt := determine_data_type_digit_le4 hd hlen
    apply string_eq_of_data
    simp [map_parameters, mapParamsGo, mapParamStep, drgEqTemplate,
      containsS, containsL, startsWithL, paramSubGo, hdt, data_append,
      Nat.repr, Nat.toDigits, Nat.toDigitsCore, Nat.digitChar,
      show ("$" : String) ++ Nat.repr 1 = "$1" from rfl,
      show (("string" : String) == "string") = true from rfl]
  · intro hd hlen
    have hdt := determine_data_type_digit_gt4 hd hlen
    apply string_eq_of_data
    simp [map_parameters, mapParamsGo, mapParamStep, dischargesTemplate,
      containsS, containsL, startsWithL, paramSubGo, hdt, data_append,
      Nat.repr, Nat.toDigits, Nat.toDigitsCore, Nat.digitChar,
      show ("$" : String) ++ Nat.repr 1 = "$1" from rfl,
      show (("integer" : String) == "string") = false from rfl]
  · intro hcode hne hdesc
    unfold extractConstantForParam
    rw [if_pos (by decide)]
    dsimp only
    rw [hcode]
    simp [hne, hdesc]

/-- C4 witness: the DRG code `470` is typed `"string"` and emitted
quoted; the five-digit number `12345` is typed `"integer"` and emitted
bare. -/
theorem c4_emission_witness :
    determine_data_type "470" = "string" ∧
    (map_parameters drgEqTemplate ["470"]).1 =
      "SELECT pp.provider_id FROM provider_procedures pp WHERE pp.drg_code = '470'" ∧
    determine_data_type "12345" = "integer" ∧
    (map_parameters dischargesTemplate ["12345"]).1 =
      "SELECT pp.provider_id FROM provider_procedures pp WHERE pp.total_discharges > 12345" := by
  have h470 := c4_emission_amended "470" ⟨fun _ => none, fun _ => none⟩
    defaultStructuredQuery "" ""
  have h12345 := c4_emission_amended "12345" ⟨fun _ => none, fun _ => none⟩
    defaultStructuredQuery "" ""
  exact ⟨h470.1.1 (by decide) (by decide),
    h470.2.2.2.1 (by decide) (by decide),
    h12345.1.2 (by decide) (by decide),
    h12345.2.2.2.2.1 (by decide) (by decide)⟩

/-- C4 counterexample: the claim as stated fails twice on the source.
First, the templates seeded by the repository write ILIKE parameters
without quotes (`… ILIKE $1`), and for them the ILIKE branch of
`map_parameters` does not fire: the constant is emitted as a plain quoted
literal with no `%` wildcards.  Second, a numeric parameter such as a
LIMIT constant `5` is an all-digit string of at most four characters, so
`_determine_data_type` types it `"string"` and it is emitted quoted —
not unquoted as the claim states. -/
theorem c4_emission_counterexample :
    (map_parameters
        "SELECT d.drg_description FROM drg_procedures d WHERE d.drg_description ILIKE $1"
        ["hip replacement"]).1 =
      "SELECT d.drg_description FROM drg_procedures d WHERE d.drg_description ILIKE 'hip replacement'" ∧
    (map_parameters "SELECT provider_id FROM provider_procedures LIMIT $1" ["5"]).1 =
      "SELECT provider_id FROM provider_procedures LIMIT '5'" := by decide

end HCNav

namespace HCNav

/-! ## Lemmas for the idempotence of the fallback normalization -/

theorem mrun_append {σ : Type} (step : σ → Char → σ × List Char × List String)
    (st : σ) (x y : List Char) :
    mrun step st (x ++ y) =
      ((mrun step (mrun step st x).1 y).1,
        (mrun step st x).2.1 ++ (mrun step (mrun step st x).1 y).2.1,
        (mrun step st x).2.2 ++ (mrun step (mrun step st x).1 y).2.2) := by
  induction x generalizing st with
  | nil => simp [mrun]
  | cons c cs ih =>
    simp only [List.cons_append, mrun, List.append_eq, ih, List.append_assoc]

theorem digitChar_isDigit {n : Nat} (h : n < 10) :
    (Nat.digitChar n).isDigit = true := by
  interval_cases n <;> decide

theorem toDigitsCore_digits (fuel : Nat) :
    ∀ (n : Nat) (ds : List Char), (∀ c ∈ ds, c.isDigit = true) →
      ∀ c ∈ Nat.toDigitsCore 10 fuel n ds, c.isDigit = true := by
  induction fuel with
  | zero => intro n ds hds; simpa [Nat.toDigitsCore] using hds
  | succ fuel ih =>
    intro n ds hds c hc
    rw [Nat.toDigitsCore] at hc
    by_cases h0 : n / 10 = 0
    · rw [if_pos h0] at hc
      rcases List.mem_cons.mp hc with h | h
      · subst h
        exact digitChar_isDigit (Nat.mod_lt _ (by norm_num))
      · exact hds c h
    · rw [if_neg h0] at hc
      refine ih (n / 10) (Nat.digitChar (n % 10) :: ds) ?_ c hc
      intro d hd
      rcases List.mem_cons.mp hd with h | h
      · subst h
        exact digitChar_isDigit (Nat.mod_lt _ (by norm_num))
      · exact hds d h

theorem repr_digits (k : Nat) : ∀ c ∈ (Nat.repr k).data, c.isDigit = true := by
  intro c hc
  exact toDigitsCore_digits (k + 1) k [] (by intro d hd; cases hd) c hc

theorem toDigitsCore_ne_nil : ∀ (fuel n : Nat) (ds : List Char),
    (fuel ≠ 0 ∨ ds ≠ []) → Nat.toDigitsCore 10 fuel n ds ≠ [] := by
  intro fuel
  induction fuel with
  | zero =>
    intro n ds h
    rcases h with h | h
    · exact absurd rfl h
    · simpa [Nat.toDigitsCore] using h
  | succ fuel ih =>
    intro n ds h
    rw [Nat.toDigitsCore]
    by_cases h0 : n / 10 = 0
    · rw [if_pos h0]
      exact List.cons_ne_nil _ _
    · rw [if_neg h0]
      exact ih (n / 10) _ (Or.inr (List.cons_ne_nil _ _))

theorem repr_ne_nil (k : Nat) : (Nat.repr k).data ≠ [] := by
  have h : (Nat.repr k).data = Nat.toDigitsCore 10 (k + 1) k [] := rfl
  rw [h]
  exact toDigitsCore_ne_nil (k + 1) k [] (Or.inl (by omega))

theorem placeholder_digits (k : Nat) :
    ∀ c ∈ placeholderL k, c = '$' ∨ c.isDigit = true := by
  intro c hc
  rcases List.mem_cons.mp hc with h | h
  · exact Or.inl h
  · exact Or.inr (repr_digits k c h)

theorem digit_isWordChar {d : Char} (h : d.isDigit = true) :
    isWordChar d = true := by
  simp [isWordChar, Char.isAlphanum, h]

theorem placeholder_quoteFree (k : Nat) : quoteFree (placeholderL k) := by
  intro hmem
  rcases placeholder_digits k '\'' hmem with h | h
  · cases h
  · exact absurd h (by decide)

theorem placeholder_no_ws (k : Nat) :
    ∀ c ∈ placeholderL k, c.isWhitespace = false := by
  intro c hc
  rcases placeholder_digits k c hc with h | h
  · subst h; decide
  · exact digit_not_ws h

theorem dropWhile_head_not {α : Type} {p : α → Bool} :
    ∀ {cs : List α} {d : α} {rest : List α},
      cs.dropWhile p = d :: rest → p d = false := by
  intro cs
  induction cs with
  | nil => intro d rest h; cases h
  | cons a as ih =>
    intro d rest h
    rw [List.dropWhile_cons] at h
    by_cases hp : p a = true
    · rw [if_pos hp] at h
      exact ih h
    · rw [if_neg hp] at h
      cases h
      exact Bool.not_eq_true _ ▸ Bool.eq_false_iff.mpr hp

theorem rdropL_append (p : Char → Bool) (x y : List Char) :
    rdropL p (x ++ y) =
      (if rdropL p y = [] then rdropL p x else x ++ rdropL p y) := by
  unfold rdropL
  rw [List.reverse_append, List.dropWhile_append]
  by_cases h : (y.reverse.dropWhile p).isEmpty = true
  · rw [if_pos h]
    have h2 : y.reverse.dropWhile p = [] := List.isEmpty_iff.mp h
    rw [if_pos (by rw [h2]; rfl)]
  · rw [if_neg h]
    have h2 : y.reverse.dropWhile p ≠ [] := by
      intro hc
      rw [hc] at h
      exact h rfl
    rw [if_neg (by
      intro hc
      exact h2 (by simpa using congrArg List.reverse hc))]
    rw [List.reverse_append, List.reverse_reverse]

theorem rdropL_ne_nil_of_head {p : Char → Bool} {q : Char} (z : List Char)
    (hq : p q = false) : rdropL p (q :: z) ≠ [] := by
  unfold rdropL
  intro h
  have h2 : (q :: z).reverse.dropWhile p = [] := by
    simpa using congrArg List.reverse h
  have h3 : ∀ c ∈ (q :: z).reverse, p c = true := by
    intro c hc
    have := List.dropWhile_eq_nil_iff.mp h2
    exact this c hc
  have := h3 q (by simp)
  rw [hq] at this
  cases this

theorem rdropL_decomp (p : Char → Bool) (l : List Char) :
    ∃ t, l = rdropL p l ++ t ∧ ∀ c ∈ t, p c = true := by
  refine ⟨(l.reverse.takeWhile p).reverse, ?_, ?_⟩
  · unfold rdropL
    rw [← List.reverse_append, List.takeWhile_append_dropWhile, List.reverse_reverse]
  · intro c hc
    rw [List.mem_reverse] at hc
    exact List.mem_takeWhile_imp hc

theorem rdropL_cons_of_head {p : Char → Bool} {q : Char} (z : List Char)
    (hq : p q = false) : rdropL p (q :: z) = q :: rdropL p z := by
  have h := rdropL_append p [q] z
  simp only [List.singleton_append] at h
  rw [h]
  by_cases hz : rdropL p z = []
  · rw [if_pos hz, hz]
    unfold rdropL
    simp [List.dropWhile_cons, hq]
  · rw [if_neg hz]

end HCNav

namespace HCNav

theorem char_toNat_ofNat_of_lt {n : Nat} (h : n < 55296) :
    (Char.ofNat n).toNat = n := by
  rw [Char.ofNat, dif_pos (Or.inl h)]
  rfl

theorem toLower_eq (c : Char) :
    c.toLower = if c.toNat ≥ 65 ∧ c.toNat ≤ 90 then Char.ofNat (c.toNat + 32) else c := rfl

theorem toLower_toLower (c : Char) : c.toLower.toLower = c.toLower := by
  rw [toLower_eq c]
  by_cases h : c.toNat ≥ 65 ∧ c.toNat ≤ 90
  · rw [if_pos h, toLower_eq]
    have ht : (Char.ofNat (c.toNat + 32)).toNat = c.toNat + 32 :=
      char_toNat_ofNat_of_lt (by omega)
    rw [if_neg (by rw [ht]; omega)]
  · rw [if_neg h, toLower_eq, if_neg h]

theorem nspecial_special {c : Char} (h : NSpecial c) : SpecialC c := by
  rcases h with h | h | h
  · exact Or.inr (Or.inl h)
  · exact Or.inr (Or.inr (Or.inl h))
  · exact Or.inr (Or.inr (Or.inr (Or.inr h)))

theorem nspecial_not_quote {c : Char} (h : NSpecial c) : c ≠ '\'' := by
  rcases h with h | h | h
  · subst h; decide
  · subst h; decide
  · intro he; subst he; exact absurd h (by decide)

theorem toLower_special {c : Char} (h : SpecialC c) : Char.toLower c = c := by
  rcases h with h | h | h | h | h
  · subst h; decide
  · subst h; decide
  · subst h; decide
  · subst h; decide
  · exact char_toLower_digit h

theorem special_digit {c : Char} (h : c.isDigit = true) : SpecialC c :=
  Or.inr (Or.inr (Or.inr (Or.inr h)))

theorem special_placeholder (k : Nat) : ∀ c ∈ placeholderL k, SpecialC c := by
  intro c hc
  rcases placeholder_digits k c hc with h | h
  · exact Or.inr (Or.inl h)
  · exact special_digit h

theorem nspecial_placeholder (k : Nat) : ∀ c ∈ placeholderL k, NSpecial c := by
  intro c hc
  rcases placeholder_digits k c hc with h | h
  · exact Or.inl h
  · exact Or.inr (Or.inr h)

theorem wordchar_not_ws {c : Char} (h : isWordChar c = true) :
    c.isWhitespace = false := by
  rw [Bool.eq_false_iff]
  intro hw
  rw [Char.isWhitespace] at hw
  have hw' := hw
  rw [Bool.or_eq_true, Bool.or_eq_true, Bool.or_eq_true] at hw'
  have hc : c = ' ' ∨ c = '\t' ∨ c = '\r' ∨ c = '\n' := by
    rcases hw' with ((h1 | h1) | h1) | h1
    · exact Or.inl (by simpa using h1)
    · exact Or.inr (Or.inl (by simpa using h1))
    · exact Or.inr (Or.inr (Or.inl (by simpa using h1)))
    · exact Or.inr (Or.inr (Or.inr (by simpa using h1)))
  rcases hc with h1 | h1 | h1 | h1 <;> (subst h1; exact absurd h (by decide))

/-! ### Structural lemmas for `lastCharOr`, `NumSafe` and `WsOk` -/

theorem lastCharOr_nil (p : Option Char) : lastCharOr p [] = p := rfl

theorem lastCharOr_cons (p : Option Char) (c : Char) (cs : List Char) :
    lastCharOr p (c :: cs) = lastCharOr (some c) cs := by
  cases cs with
  | nil => rfl
  | cons d ds =>
    cases hg : (d :: ds).getLast? with
    | none => exact absurd hg (by simp)
    | some e => rw [lastCharOr, lastCharOr, List.getLast?_cons_cons, hg]

theorem lastCharOr_concat (p : Option Char) (x : List Char) (c : Char) :
    lastCharOr p (x ++ [c]) = some c := by
  simp [lastCharOr, List.getLast?_concat]

theorem ws_not_word {c : Char} (h : c.isWhitespace = true) :
    isWordChar c = false := by
  cases hw : isWordChar c with
  | false => rfl
  | true => rw [wordchar_not_ws hw] at h; cases h

theorem escapes_decomp0 {x : List Char} (h : escapesRun x) :
    ∃ ds w t, x = ds ++ w :: t ∧ (∀ d ∈ ds, d.isDigit = true) ∧
      isWordChar w = true ∧ w.isDigit = false := by
  unfold escapesRun at h
  cases hdw : x.dropWhile Char.isDigit with
  | nil => rw [hdw] at h; exact h.elim
  | cons w t =>
    rw [hdw] at h
    refine ⟨x.takeWhile Char.isDigit, w, t, ?_, ?_, h, dropWhile_head_not hdw⟩
    · rw [← hdw, List.takeWhile_append_dropWhile]
    · intro d hd
      exact List.mem_takeWhile_imp hd

theorem escapes_intro (ds : List Char) (w : Char) (t : List Char)
    (hds : ∀ d ∈ ds, d.isDigit = true) (hw : isWordChar w = true)
    (hwd : w.isDigit = false) : escapesRun (ds ++ w :: t) := by
  unfold escapesRun
  rw [List.dropWhile_append]
  rw [if_pos (by rw [List.dropWhile_eq_nil_iff.mpr hds]; rfl)]
  rw [List.dropWhile_cons, if_neg (by rw [hwd]; intro hh; cases hh)]
  exact hw

theorem escapesRun_append {x : List Char} (y : List Char) (h : escapesRun x) :
    escapesRun (x ++ y) := by
  obtain ⟨ds, w, t, hx, hds, hw, hwd⟩ := escapes_decomp0 h
  rw [hx, List.append_assoc, List.cons_append]
  exact escapes_intro ds w (t ++ y) hds hw hwd

theorem escapesRun_of_append {x y : List Char} (h : escapesRun (x ++ y))
    (hy : ∀ z ∈ y, isWordChar z = false) : escapesRun x := by
  unfold escapesRun at h ⊢
  rw [List.dropWhile_append] at h
  by_cases he : (x.dropWhile Char.isDigit).isEmpty = true
  · rw [if_pos he] at h
    cases hdw : y.dropWhile Char.isDigit with
    | nil => rw [hdw] at h; exact h.elim
    | cons w t =>
      rw [hdw] at h
      dsimp only at h
      have hwy : w ∈ y := (List.dropWhile_sublist _).subset
        (by rw [hdw]; exact List.mem_cons_self _ _)
      rw [hy w hwy] at h
      cases h
  · rw [if_neg he] at h
    cases hdx : x.dropWhile Char.isDigit with
    | nil => rw [hdx] at he; exact absurd rfl he
    | cons w t =>
      rw [hdx] at h
      rw [List.cons_append] at h
      dsimp only at h ⊢
      exact h

theorem escapes_decomp {c : Char} {cs : List Char} (h : escapesRun (c :: cs))
    (hc : c.isDigit = true) :
    ∃ ds w t, cs = ds ++ w :: t ∧ (∀ d ∈ ds, d.isDigit = true) ∧
      isWordChar w = true ∧ w.isDigit = false := by
  obtain ⟨ds0, w, t, hx, hds, hw, hwd⟩ := escapes_decomp0 h
  cases ds0 with
  | nil =>
    rw [List.nil_append] at hx
    injection hx with h1 h2
    rw [h1] at hc
    rw [hwd] at hc
    cases hc
  | cons d ds1 =>
    rw [List.cons_append] at hx
    injection hx with h1 h2
    exact ⟨ds1, w, t, h2, fun e he => hds e (List.mem_cons_of_mem _ he), hw, hwd⟩

theorem numSafe_append {p : Option Char} {x y : List Char}
    (hx : NumSafe p x) (hy : NumSafe (lastCharOr p x) y) : NumSafe p (x ++ y) := by
  induction x generalizing p with
  | nil => simpa [lastCharOr_nil] using hy
  | cons c cs ih =>
    rw [lastCharOr_cons] at hy
    refine ⟨?_, ih hx.2 hy⟩
    intro hd
    rcases hx.1 hd with h1 | h1
    · exact Or.inl h1
    · exact Or.inr (escapesRun_append y h1)

theorem numSafe_of_append_left_nonword {p : Option Char} {x y : List Char}
    (h : NumSafe p (x ++ y)) (hy : ∀ z ∈ y, isWordChar z = false) :
    NumSafe p x := by
  induction x generalizing p with
  | nil => trivial
  | cons c cs ih =>
    refine ⟨?_, ih h.2⟩
    intro hd
    rcases h.1 hd with h1 | h1
    · exact Or.inl h1
    · exact Or.inr (escapesRun_of_append h1 hy)

theorem numSafe_of_append_right {p : Option Char} {x y : List Char}
    (h : NumSafe p (x ++ y)) : NumSafe (lastCharOr p x) y := by
  induction x generalizing p with
  | nil => simpa [lastCharOr_nil] using h
  | cons c cs ih =>
    rw [lastCharOr_cons]
    exact ih h.2

theorem numSafe_change_prev {p q : Option Char} {c : Char} {cs : List Char}
    (h : NumSafe p (c :: cs)) (hc : c.isDigit = false) : NumSafe q (c :: cs) :=
  ⟨fun hd => absurd hd (by rw [hc]; intro he; cases he), h.2⟩

theorem numSafe_of_startOk {q : Option Char} {l : List Char}
    (h : NumSafe q l) (hq : numStartOk q = true) (p : Option Char) :
    NumSafe p l := by
  cases l with
  | nil => trivial
  | cons c cs =>
    refine ⟨?_, h.2⟩
    intro hd
    rcases h.1 hd with h1 | h1
    · rw [hq] at h1; cases h1
    · exact Or.inr h1

theorem numStartOk_false_cases {p : Option Char} (h : numStartOk p = false) :
    ∃ x, p = some x ∧ (isWordChar x = true ∨ x = '$') := by
  cases p with
  | none => cases h
  | some x =>
    refine ⟨x, rfl, ?_⟩
    rw [numStartOk, Bool.and_eq_false_iff] at h
    rcases h with h | h
    · exact Or.inl (by simpa using h)
    · exact Or.inr (by simpa using h)

theorem numSafe_digits {ds : List Char} (hd : ∀ c ∈ ds, c.isDigit = true) :
    ∀ p, numStartOk p = false → NumSafe p ds := by
  induction ds with
  | nil => intro p _; trivial
  | cons d ds ih =>
    intro p hp
    refine ⟨fun _ => Or.inl hp, ih (fun c hc => hd c (List.mem_cons_of_mem _ hc)) _ ?_⟩
    have hdd : d.isDigit = true := hd d (List.mem_cons_self _ _)
    simp [numStartOk, digit_isWordChar hdd]

theorem numStartOk_dollar : numStartOk (some '$') = false := by decide

theorem numSafe_ph (p : Option Char) (k : Nat) : NumSafe p (placeholderL k) := by
  refine ⟨fun hd => absurd hd (by decide), ?_⟩
  exact numSafe_digits (repr_digits k) _ numStartOk_dollar

theorem numSafe_digits_word_cont {ds : List Char}
    (hds : ∀ d ∈ ds, d.isDigit = true) {w : Char} (hw : isWordChar w = true)
    (hwd : w.isDigit = false) {R : List Char} (hR : NumSafe (some w) R) :
    ∀ p, NumSafe p (ds ++ w :: R) := by
  induction ds with
  | nil => exact fun p => ⟨fun hd => absurd hd (by rw [hwd]; intro hh; cases hh), hR⟩
  | cons d ds' ih =>
    intro p
    refine ⟨fun _ => Or.inr ?_, ih (fun c hc => hds c (List.mem_cons_of_mem _ hc)) (some d)⟩
    exact escapes_intro (d :: ds') w R hds hw hwd

theorem wsOk_of_append_left {b : Bool} {x y : List Char}
    (h : WsOk b (x ++ y)) : WsOk b x := by
  induction x generalizing b with
  | nil => trivial
  | cons c cs ih => exact ⟨h.1, ih h.2⟩

theorem lastWsFlag_nil (b : Bool) : lastWsFlag b [] = b := rfl

theorem lastWsFlag_cons (b : Bool) (c : Char) (cs : List Char) :
    lastWsFlag b (c :: cs) = lastWsFlag c.isWhitespace cs := by
  cases cs with
  | nil => rfl
  | cons d ds =>
    cases hg : (d :: ds).getLast? with
    | none => exact absurd hg (by simp)
    | some e => rw [lastWsFlag, lastWsFlag, List.getLast?_cons_cons, hg]

theorem wsOk_of_append_right {b : Bool} {x y : List Char}
    (h : WsOk b (x ++ y)) : WsOk (lastWsFlag b x) y := by
  induction x generalizing b with
  | nil => simpa [lastWsFlag_nil] using h
  | cons c cs ih =>
    rw [lastWsFlag_cons]
    exact ih h.2

theorem wsOk_change_flag {b b' : Bool} {c : Char} {cs : List Char}
    (h : WsOk b (c :: cs)) (hc : c.isWhitespace = false) : WsOk b' (c :: cs) :=
  ⟨fun hd => absurd hd (by rw [hc]; intro he; cases he), h.2⟩

end HCNav

namespace HCNav

/-! ### The string-literal pass -/

theorem mrun_nil {σ : Type} (step : σ → Char → σ × List Char × List String) (st : σ) :
    mrun step st [] = (st, [], []) := rfl

theorem mrun_cons {σ : Type} (step : σ → Char → σ × List Char × List String)
    (st : σ) (c : Char) (cs : List Char) :
    mrun step st (c :: cs) =
      ((mrun step (step st c).1 cs).1,
        (step st c).2.1 ++ (mrun step (step st c).1 cs).2.1,
        (step st c).2.2 ++ (mrun step (step st c).1 cs).2.2) := rfl

theorem quoteFree_nil : quoteFree [] := by intro h; cases h

theorem quoteFree_cons_ne {c : Char} {cs : List Char} (h : quoteFree (c :: cs)) :
    (c == '\'') = false := by
  rw [beq_eq_false_iff_ne]
  intro he
  exact h (by rw [he]; exact List.mem_cons_self _ _)

theorem quoteFree_of_cons {c : Char} {cs : List Char} (h : quoteFree (c :: cs)) :
    quoteFree cs := fun hm => h (List.mem_cons_of_mem _ hm)

theorem quoteFree_append {x y : List Char} (hx : quoteFree x) (hy : quoteFree y) :
    quoteFree (x ++ y) := by
  intro hm
  rcases List.mem_append.mp hm with h | h
  · exact hx h
  · exact hy h

theorem strStep_none (k : Nat) {c : Char} (hc : (c == '\'') = false) :
    strStep (k, none) c = ((k, none), [c], []) := by
  simp [strStep, hc]

theorem strStep_none_quote (k : Nat) :
    strStep (k, none) '\'' = ((k, some []), [], []) := rfl

theorem strStep_some (k : Nat) (acc : List Char) {c : Char} (hc : (c == '\'') = false) :
    strStep (k, some acc) c = ((k, some (acc ++ [c])), [], []) := by
  simp [strStep, hc]

theorem strStep_some_quote (k : Nat) (acc : List Char) :
    strStep (k, some acc) '\'' =
      ((k + 1, none), '\'' :: (placeholderL k ++ ['\'']), [String.mk acc]) := rfl

theorem strRun_qfree : ∀ (a : List Char) (k : Nat), quoteFree a →
    mrun strStep (k, none) a = ((k, none), a, []) := by
  intro a
  induction a with
  | nil => intro k _; rfl
  | cons c cs ih =>
    intro k h
    rw [mrun_cons, strStep_none k (quoteFree_cons_ne h)]
    simp [ih k (quoteFree_of_cons h)]

theorem strRun_qfree_open : ∀ (t : List Char) (k : Nat) (acc : List Char), quoteFree t →
    mrun strStep (k, some acc) t = ((k, some (acc ++ t)), [], []) := by
  intro t
  induction t with
  | nil => intro k acc _; simp [mrun_nil]
  | cons c cs ih =>
    intro k acc h
    rw [mrun_cons, strStep_some k acc (quoteFree_cons_ne h)]
    simp [ih k (acc ++ [c]) (quoteFree_of_cons h)]

theorem stringSubL_fst (k : Nat) (s : List Char) :
    (stringSubL k s).1 =
      (mrun strStep (k, none) s).2.1 ++ strFinal (mrun strStep (k, none) s).1 := rfl

theorem strSub_qfree (k : Nat) (s : List Char) (h : quoteFree s) :
    (stringSubL k s).1 = s := by
  rw [stringSubL_fst, strRun_qfree s k h]
  simp [strFinal]

theorem strSub_dangling (k : Nat) (a t : List Char) (ha : quoteFree a) (ht : quoteFree t) :
    (stringSubL k (a ++ '\'' :: t)).1 = a ++ '\'' :: t := by
  rw [stringSubL_fst, mrun_append, strRun_qfree a k ha]
  dsimp only
  rw [mrun_cons, strStep_none_quote]
  dsimp only
  rw [strRun_qfree_open t k [] ht]
  simp [strFinal]

theorem strSub_two_quotes (k : Nat) (a b r : List Char) (ha : quoteFree a) (hb : quoteFree b) :
    (stringSubL k (a ++ '\'' :: (b ++ '\'' :: r))).1 =
      a ++ '\'' :: (placeholderL k ++ '\'' :: (stringSubL (k + 1) r).1) := by
  rw [stringSubL_fst, mrun_append, strRun_qfree a k ha]
  dsimp only
  rw [mrun_cons, strStep_none_quote]
  dsimp only
  rw [mrun_append, strRun_qfree_open b k [] hb]
  dsimp only
  rw [mrun_cons, strStep_some_quote]
  dsimp only
  rw [stringSubL_fst]
  simp

theorem strMem : ∀ (s : List Char) (k : Nat) (o : Option (List Char)) (c : Char),
    c ∈ (mrun strStep (k, o) s).2.1 ++ strFinal (mrun strStep (k, o) s).1 →
    c ∈ s ∨ SpecialC c ∨ ∃ a, o = some a ∧ c ∈ a := by
  intro s
  induction s with
  | nil =>
    intro k o c hc
    rw [mrun_nil] at hc
    cases o with
    | none => simp [strFinal] at hc
    | some a =>
      simp [strFinal] at hc
      rcases hc with h | h
      · exact Or.inr (Or.inl (Or.inl h))
      · exact Or.inr (Or.inr ⟨a, rfl, h⟩)
  | cons d ds ih =>
    intro k o c hc
    rw [mrun_cons] at hc
    cases o with
    | none =>
      by_cases hd : (d == '\'') = true
      · have hd' : d = '\'' := by simpa using hd
        subst hd'
        rw [strStep_none_quote] at hc
        dsimp only at hc
        rw [List.nil_append] at hc
        rcases ih k (some []) c hc with h | h | ⟨a, ha, hm⟩
        · exact Or.inl (List.mem_cons_of_mem _ h)
        · exact Or.inr (Or.inl h)
        · cases Option.some.inj ha; simp at hm
      · have hd2 : (d == '\'') = false := by
          revert hd; cases (d == '\'') <;> simp
        rw [strStep_none k hd2] at hc
        dsimp only at hc
        rcases List.mem_append.mp hc with h | h
        · rcases List.mem_append.mp h with h1 | h1
          · simp only [List.mem_singleton] at h1
            exact Or.inl (by rw [h1]; exact List.mem_cons_self _ _)
          · rcases ih k none c (List.mem_append.mpr (Or.inl h1)) with h2 | h2 | ⟨a, ha, _⟩
            · exact Or.inl (List.mem_cons_of_mem _ h2)
            · exact Or.inr (Or.inl h2)
            · cases ha
        · rcases ih k none c (List.mem_append.mpr (Or.inr h)) with h2 | h2 | ⟨a, ha, _⟩
          · exact Or.inl (List.mem_cons_of_mem _ h2)
          · exact Or.inr (Or.inl h2)
          · cases ha
    | some acc =>
      by_cases hd : (d == '\'') = true
      · have hd' : d = '\'' := by simpa using hd
        subst hd'
        rw [strStep_some_quote] at hc
        dsimp only at hc
        rcases List.mem_append.mp hc with h | h
        · rcases List.mem_append.mp h with h1 | h1
          · rcases List.mem_cons.mp h1 with h2 | h2
            · exact Or.inr (Or.inl (Or.inl h2))
            · rcases List.mem_append.mp h2 with h3 | h3
              · exact Or.inr (Or.inl (nspecial_special (nspecial_placeholder k c h3)))
              · simp only [List.mem_singleton] at h3
                exact Or.inr (Or.inl (Or.inl h3))
          · rcases ih (k + 1) none c (List.mem_append.mpr (Or.inl h1)) with
              h2 | h2 | ⟨a, ha, _⟩
            · exact Or.inl (List.mem_cons_of_mem _ h2)
            · exact Or.inr (Or.inl h2)
            · cases ha
        · rcases ih (k + 1) none c (List.mem_append.mpr (Or.inr h)) with
            h2 | h2 | ⟨a, ha, _⟩
          · exact Or.inl (List.mem_cons_of_mem _ h2)
          · exact Or.inr (Or.inl h2)
          · cases ha
      · have hd2 : (d == '\'') = false := by
          revert hd; cases (d == '\'') <;> simp
        rw [strStep_some k acc hd2] at hc
        dsimp only at hc
        rw [List.nil_append] at hc
        rcases ih k (some (acc ++ [d])) c hc with h | h | ⟨a, ha, hm⟩
        · exact Or.inl (List.mem_cons_of_mem _ h)
        · exact Or.inr (Or.inl h)
        · cases Option.some.inj ha
          rcases List.mem_append.mp hm with h2 | h2
          · exact Or.inr (Or.inr ⟨acc, rfl, h2⟩)
          · simp only [List.mem_singleton] at h2
            exact Or.inl (by rw [h2]; exact List.mem_cons_self _ _)

/-- Split a list at its first quote. -/
theorem quote_split (s : List Char) :
    quoteFree s ∨ ∃ a t, s = a ++ '\'' :: t ∧ quoteFree a ∧ t.length < s.length := by
  cases hd : s.dropWhile (fun c => c != '\'') with
  | nil =>
    left
    intro hm
    have h := List.dropWhile_eq_nil_iff.mp hd '\'' hm
    simp at h
  | cons c cs =>
    right
    have hc : (c != '\'') = false := @dropWhile_head_not Char (fun x => x != '\'') s c cs hd
    have hc' : c = '\'' := by simpa using hc
    refine ⟨s.takeWhile (fun c => c != '\''), cs, ?_, ?_, ?_⟩
    · have h2 : List.takeWhile (fun x => x != '\'') s ++
          List.dropWhile (fun x => x != '\'') s = s := List.takeWhile_append_dropWhile _ s
      rw [hd] at h2
      nth_rewrite 1 [← h2]
      rw [hc']
    · intro hm
      have := List.mem_takeWhile_imp hm
      simp at this
    · have hlen : s.length = (s.takeWhile (fun c => c != '\'')).length + (c :: cs).length := by
        rw [← List.length_append, ← hd, List.takeWhile_append_dropWhile]
      simp only [List.length_cons] at hlen
      omega

theorem strOut_shape_aux : ∀ (n : Nat) (s : List Char) (k : Nat), s.length ≤ n →
    QShape k ((stringSubL k s).1) := by
  intro n
  induction n with
  | zero =>
    intro s k h
    have hs : s = [] := List.eq_nil_of_length_eq_zero (Nat.le_zero.mp h)
    subst hs
    rw [strSub_qfree k [] quoteFree_nil]
    exact QShape.done k [] quoteFree_nil
  | succ n ih =>
    intro s k hlen
    rcases quote_split s with hq | ⟨a, t, hs, hqa, hlt⟩
    · rw [strSub_qfree k s hq]
      exact QShape.done k s hq
    · subst hs
      rcases quote_split t with hq | ⟨b, r, ht, hqb, hlt2⟩
      · rw [strSub_dangling k a t hqa hq]
        exact QShape.dangling k a t hqa hq
      · subst ht
        rw [strSub_two_quotes k a b r hqa hqb]
        refine QShape.block k a _ hqa ?_
        refine ih r (k + 1) ?_
        have h1 : (a ++ '\'' :: (b ++ '\'' :: r)).length =
            a.length + 1 + (b.length + 1 + r.length) := by simp; omega
        omega

theorem strOut_shape (s : List Char) (k : Nat) : QShape k ((stringSubL k s).1) :=
  strOut_shape_aux s.length s k (Nat.le_refl _)

theorem strId {k : Nat} {u : List Char} (h : QShape k u) : (stringSubL k u).1 = u := by
  induction h with
  | done k a ha => exact strSub_qfree k a ha
  | dangling k a t ha ht => exact strSub_dangling k a t ha ht
  | block k a rest ha _ ih =>
    rw [strSub_two_quotes k a (placeholderL k) rest ha (placeholder_quoteFree k), ih]

end HCNav

namespace HCNav

/-! ### The numeric pass -/

theorem numStep_ready_pass (k : Nat) (prev : Option Char) {c : Char}
    (h : (c.isDigit && numStartOk prev) = false) :
    numStep (k, NumMode.ready prev) c = ((k, NumMode.ready (some c)), [c], []) := by
  simp [numStep, h]

theorem numStep_ready_match (k : Nat) (prev : Option Char) {c : Char}
    (h : (c.isDigit && numStartOk prev) = true) :
    numStep (k, NumMode.ready prev) c = ((k, NumMode.num [c]), [], []) := by
  simp [numStep, h]

theorem numStep_num_digit (k : Nat) (acc : List Char) {c : Char} (h : c.isDigit = true) :
    numStep (k, NumMode.num acc) c = ((k, NumMode.num (acc ++ [c])), [], []) := by
  simp [numStep, h]

theorem numStep_num_dot (k : Nat) (acc : List Char) :
    numStep (k, NumMode.num acc) '.' = ((k, NumMode.dotp acc), [], []) := rfl

theorem numStep_num_word (k : Nat) (acc : List Char) {c : Char}
    (h1 : c.isDigit = false) (h2 : (c == '.') = false) (h3 : isWordChar c = true) :
    numStep (k, NumMode.num acc) c = ((k, NumMode.ready (some c)), acc ++ [c], []) := by
  simp [numStep, h1, h2, h3]

theorem numStep_num_flush (k : Nat) (acc : List Char) {c : Char}
    (h1 : c.isDigit = false) (h2 : (c == '.') = false) (h3 : isWordChar c = false) :
    numStep (k, NumMode.num acc) c =
      ((k + 1, NumMode.ready (some c)), placeholderL k ++ [c], [String.mk acc]) := by
  simp [numStep, h1, h2, h3]

theorem numStep_dotp_digit (k : Nat) (acc : List Char) {c : Char} (h : c.isDigit = true) :
    numStep (k, NumMode.dotp acc) c = ((k, NumMode.frac acc [c]), [], []) := by
  simp [numStep, h]

theorem numStep_dotp_flush (k : Nat) (acc : List Char) {c : Char} (h : c.isDigit = false) :
    numStep (k, NumMode.dotp acc) c =
      ((k + 1, NumMode.ready (some c)), placeholderL k ++ ('.' :: [c]), [String.mk acc]) := by
  simp [numStep, h]

theorem numStep_frac_digit (k : Nat) (acc facc : List Char) {c : Char} (h : c.isDigit = true) :
    numStep (k, NumMode.frac acc facc) c =
      ((k, NumMode.frac acc (facc ++ [c])), [], []) := by
  simp [numStep, h]

theorem numStep_frac_word (k : Nat) (acc facc : List Char) {c : Char}
    (h1 : c.isDigit = false) (h3 : isWordChar c = true) :
    numStep (k, NumMode.frac acc facc) c =
      ((k + 1, NumMode.ready (some c)), placeholderL k ++ ('.' :: (facc ++ [c])),
        [String.mk acc]) := by
  simp [numStep, h1, h3]

theorem numStep_frac_flush (k : Nat) (acc facc : List Char) {c : Char}
    (h1 : c.isDigit = false) (h3 : isWordChar c = false) :
    numStep (k, NumMode.frac acc facc) c =
      ((k + 1, NumMode.ready (some c)), placeholderL k ++ [c],
        [String.mk (acc ++ ('.' :: facc))]) := by
  simp [numStep, h1, h3]

theorem numStep_quote (st : Nat × NumMode) :
    ∃ k2 pre cst, numStep st '\'' = ((k2, NumMode.ready (some '\'')), pre ++ ['\''], cst) ∧
      ∀ c ∈ pre, NSpecial c := by
  obtain ⟨k, m⟩ := st
  have hq : ('\''.isDigit) = false := by decide
  cases m with
  | ready prev =>
    refine ⟨k, [], [], ?_, by intro c hc; cases hc⟩
    rw [numStep_ready_pass k prev (by rw [hq]; rfl)]
    rfl
  | num acc =>
    exact ⟨k + 1, placeholderL k, [String.mk acc],
      numStep_num_flush k acc hq (by decide) (by decide), nspecial_placeholder k⟩
  | dotp acc =>
    refine ⟨k + 1, placeholderL k ++ ['.'], [String.mk acc], ?_, ?_⟩
    · rw [numStep_dotp_flush k acc hq]
      simp
    · intro c hc
      rcases List.mem_append.mp hc with h | h
      · exact nspecial_placeholder k c h
      · simp only [List.mem_singleton] at h
        subst h
        exact Or.inr (Or.inl rfl)
  | frac acc facc =>
    exact ⟨k + 1, placeholderL k, [String.mk (acc ++ ('.' :: facc))],
      numStep_frac_flush k acc facc hq (by decide), nspecial_placeholder k⟩

theorem numStep_accDigits (st : Nat × NumMode) (c : Char) (h : AccDigits st) :
    AccDigits (numStep st c).1 := by
  obtain ⟨k, m⟩ := st
  cases m with
  | ready prev =>
    by_cases hg : (c.isDigit && numStartOk prev) = true
    · rw [numStep_ready_match k prev hg]
      intro x hx
      simp only [List.mem_singleton] at hx
      rw [hx]
      rw [Bool.and_eq_true] at hg
      exact hg.1
    · rw [numStep_ready_pass k prev
        (by revert hg; cases (c.isDigit && numStartOk prev) <;> simp)]
      trivial
  | num acc =>
    by_cases hd : c.isDigit = true
    · rw [numStep_num_digit k acc hd]
      intro x hx
      rcases List.mem_append.mp hx with h1 | h1
      · exact h x h1
      · simp only [List.mem_singleton] at h1
        rw [h1]
        exact hd
    · have hd2 : c.isDigit = false := by revert hd; cases c.isDigit <;> simp
      by_cases hdot : (c == '.') = true
      · have hc : c = '.' := by simpa using hdot
        subst hc
        rw [numStep_num_dot k acc]
        exact h
      · have hdot2 : (c == '.') = false := by revert hdot; cases (c == '.') <;> simp
        by_cases hw : isWordChar c = true
        · rw [numStep_num_word k acc hd2 hdot2 hw]
          trivial
        · have hw2 : isWordChar c = false := by revert hw; cases isWordChar c <;> simp
          rw [numStep_num_flush k acc hd2 hdot2 hw2]
          trivial
  | dotp acc =>
    by_cases hd : c.isDigit = true
    · rw [numStep_dotp_digit k acc hd]
      refine ⟨h, ?_⟩
      intro x hx
      simp only [List.mem_singleton] at hx
      rw [hx]
      exact hd
    · have hd2 : c.isDigit = false := by revert hd; cases c.isDigit <;> simp
      rw [numStep_dotp_flush k acc hd2]
      trivial
  | frac acc facc =>
    by_cases hd : c.isDigit = true
    · rw [numStep_frac_digit k acc facc hd]
      refine ⟨h.1, ?_⟩
      intro x hx
      rcases List.mem_append.mp hx with h1 | h1
      · exact h.2 x h1
      · simp only [List.mem_singleton] at h1
        rw [h1]
        exact hd
    · have hd2 : c.isDigit = false := by revert hd; cases c.isDigit <;> simp
      by_cases hw : isWordChar c = true
      · rw [numStep_frac_word k acc facc hd2 hw]
        trivial
      · have hw2 : isWordChar c = false := by revert hw; cases isWordChar c <;> simp
        rw [numStep_frac_flush k acc facc hd2 hw2]
        trivial

theorem numStep_mem (st : Nat × NumMode) (c : Char) (hacc : AccDigits st) :
    ∀ x ∈ (numStep st c).2.1, x = c ∨ NSpecial x := by
  obtain ⟨k, m⟩ := st
  cases m with
  | ready prev =>
    by_cases h : (c.isDigit && numStartOk prev) = true
    · rw [numStep_ready_match k prev h]
      intro x hx
      cases hx
    · have h2 : (c.isDigit && numStartOk prev) = false := by
        revert h; cases (c.isDigit && numStartOk prev) <;> simp
      rw [numStep_ready_pass k prev h2]
      intro x hx
      simp only [List.mem_singleton] at hx
      exact Or.inl hx
  | num acc =>
    by_cases hd : c.isDigit = true
    · rw [numStep_num_digit k acc hd]; intro x hx; cases hx
    · have hd2 : c.isDigit = false := by revert hd; cases c.isDigit <;> simp
      by_cases hdot : (c == '.') = true
      · have hc : c = '.' := by simpa using hdot
        subst hc
        rw [numStep_num_dot k acc]; intro x hx; cases hx
      · have hdot2 : (c == '.') = false := by revert hdot; cases (c == '.') <;> simp
        by_cases hw : isWordChar c = true
        · rw [numStep_num_word k acc hd2 hdot2 hw]
          intro x hx
          rcases List.mem_append.mp hx with h | h
          · exact Or.inr (Or.inr (Or.inr (hacc x h)))
          · simp only [List.mem_singleton] at h
            exact Or.inl h
        · have hw2 : isWordChar c = false := by revert hw; cases isWordChar c <;> simp
          rw [numStep_num_flush k acc hd2 hdot2 hw2]
          intro x hx
          rcases List.mem_append.mp hx with h | h
          · exact Or.inr (nspecial_placeholder k x h)
          · simp only [List.mem_singleton] at h
            exact Or.inl h
  | dotp acc =>
    by_cases hd : c.isDigit = true
    · rw [numStep_dotp_digit k acc hd]; intro x hx; cases hx
    · have hd2 : c.isDigit = false := by revert hd; cases c.isDigit <;> simp
      rw [numStep_dotp_flush k acc hd2]
      intro x hx
      rcases List.mem_append.mp hx with h | h
      · exact Or.inr (nspecial_placeholder k x h)
      · rcases List.mem_cons.mp h with h1 | h1
        · exact Or.inr (Or.inr (Or.inl h1))
        · simp only [List.mem_singleton] at h1
          exact Or.inl h1
  | frac acc facc =>
    by_cases hd : c.isDigit = true
    · rw [numStep_frac_digit k acc facc hd]; intro x hx; cases hx
    · have hd2 : c.isDigit = false := by revert hd; cases c.isDigit <;> simp
      by_cases hw : isWordChar c = true
      · rw [numStep_frac_word k acc facc hd2 hw]
        intro x hx
        rcases List.mem_append.mp hx with h | h
        · exact Or.inr (nspecial_placeholder k x h)
        · rcases List.mem_cons.mp h with h1 | h1
          · exact Or.inr (Or.inr (Or.inl h1))
          · rcases List.mem_append.mp h1 with h2 | h2
            · exact Or.inr (Or.inr (Or.inr (hacc.2 x h2)))
            · simp only [List.mem_singleton] at h2
              exact Or.inl h2
      · have hw2 : isWordChar c = false := by revert hw; cases isWordChar c <;> simp
        rw [numStep_frac_flush k acc facc hd2 hw2]
        intro x hx
        rcases List.mem_append.mp hx with h | h
        · exact Or.inr (nspecial_placeholder k x h)
        · simp only [List.mem_singleton] at h
          exact Or.inl h

theorem numFinal_mem (st : Nat × NumMode) : ∀ x ∈ (numFinal st).1, NSpecial x := by
  obtain ⟨k, m⟩ := st
  cases m with
  | ready prev => intro x hx; cases hx
  | num acc => exact nspecial_placeholder k
  | dotp acc =>
    intro x hx
    rcases List.mem_append.mp hx with h | h
    · exact nspecial_placeholder k x h
    · simp only [List.mem_singleton] at h
      exact Or.inr (Or.inl h)
  | frac acc facc => exact nspecial_placeholder k

theorem numRun_mem : ∀ (s : List Char) (st : Nat × NumMode), AccDigits st →
    ∀ x : Char, x ∈ (mrun numStep st s).2.1 → x ∈ s ∨ NSpecial x := by
  intro s
  induction s with
  | nil => intro st _ x hx; rw [mrun_nil] at hx; cases hx
  | cons c cs ih =>
    intro st hacc x hx
    rw [mrun_cons] at hx
    rcases List.mem_append.mp hx with h | h
    · rcases numStep_mem st c hacc x h with h1 | h1
      · exact Or.inl (by rw [h1]; exact List.mem_cons_self _ _)
      · exact Or.inr h1
    · rcases ih _ (numStep_accDigits st c hacc) x h with h1 | h1
      · exact Or.inl (List.mem_cons_of_mem _ h1)
      · exact Or.inr h1

theorem numOutFrom_mem (s : List Char) (st : Nat × NumMode) (hacc : AccDigits st)
    (x : Char) (h : x ∈ numOutFrom st s) : x ∈ s ∨ NSpecial x := by
  rcases List.mem_append.mp h with h1 | h1
  · exact numRun_mem s st hacc x h1
  · exact Or.inr (numFinal_mem _ x h1)

theorem numRun_qfree (s : List Char) (st : Nat × NumMode) (hacc : AccDigits st)
    (h : quoteFree s) : quoteFree (mrun numStep st s).2.1 := by
  intro hm
  rcases numRun_mem s st hacc '\'' hm with h1 | h1
  · exact h h1
  · exact nspecial_not_quote h1 rfl

theorem numOutFrom_qfree (s : List Char) (st : Nat × NumMode) (hacc : AccDigits st)
    (h : quoteFree s) : quoteFree (numOutFrom st s) := by
  intro hm
  rcases numOutFrom_mem s st hacc '\'' hm with h1 | h1
  · exact h h1
  · exact nspecial_not_quote h1 rfl

theorem numOutFrom_cons (st : Nat × NumMode) (c : Char) (t : List Char) :
    numOutFrom st (c :: t) = (numStep st c).2.1 ++ numOutFrom (numStep st c).1 t := by
  unfold numOutFrom
  rw [mrun_cons]
  dsimp only
  rw [List.append_assoc]

theorem numOutFrom_append (st : Nat × NumMode) (x y : List Char) :
    numOutFrom st (x ++ y) =
      (mrun numStep st x).2.1 ++ numOutFrom (mrun numStep st x).1 y := by
  unfold numOutFrom
  rw [mrun_append]
  dsimp only
  rw [List.append_assoc]

theorem numberSubL_fst (k : Nat) (s : List Char) :
    (numberSubL k s).1 = numOutFrom (k, NumMode.ready none) s := rfl

theorem numRun_digits : ∀ (ds : List Char) (k : Nat) (p : Option Char),
    (∀ c ∈ ds, c.isDigit = true) → numStartOk p = false →
    ∃ p2, mrun numStep (k, NumMode.ready p) ds = ((k, NumMode.ready p2), ds, []) := by
  intro ds
  induction ds with
  | nil => intro k p _ _; exact ⟨p, rfl⟩
  | cons d ds ih =>
    intro k p hd hp
    have hg : (d.isDigit && numStartOk p) = false := by rw [hp]; simp
    obtain ⟨p2, hr⟩ := ih k (some d)
      (fun c hc => hd c (List.mem_cons_of_mem _ hc))
      (by simp [numStartOk, digit_isWordChar (hd d (List.mem_cons_self _ _))])
    refine ⟨p2, ?_⟩
    rw [mrun_cons, numStep_ready_pass k p hg]
    dsimp only
    rw [hr]
    rfl

theorem numPass_shape {m : Nat} {s : List Char} (h : QShape m s) :
    ∀ st : Nat × NumMode, AccDigits st → QShape m (numOutFrom st s) := by
  induction h with
  | done k a ha =>
    intro st hacc
    exact QShape.done k _ (numOutFrom_qfree a st hacc ha)
  | dangling k a t ha ht =>
    intro st hacc
    rw [numOutFrom_append st a ('\'' :: t), numOutFrom_cons]
    obtain ⟨k2, pre, cst, hstep, hpre⟩ := numStep_quote (mrun numStep st a).1
    rw [hstep]
    dsimp only
    have hrw : (mrun numStep st a).2.1 ++
        ((pre ++ ['\'']) ++ numOutFrom (k2, NumMode.ready (some '\'')) t) =
        ((mrun numStep st a).2.1 ++ pre) ++
          '\'' :: numOutFrom (k2, NumMode.ready (some '\'')) t := by
      simp
    rw [hrw]
    refine QShape.dangling k _ _ ?_ ?_
    · exact quoteFree_append (numRun_qfree a st hacc ha)
        (fun hm => nspecial_not_quote (hpre _ hm) rfl)
    · exact numOutFrom_qfree t _ trivial ht
  | block k a rest ha hrest ih =>
    intro st hacc
    rw [numOutFrom_append st a _, numOutFrom_cons]
    obtain ⟨k2, pre, cst, hstep, hpre⟩ := numStep_quote (mrun numStep st a).1
    rw [hstep]
    dsimp only
    have hph : placeholderL k ++ '\'' :: rest =
        '$' :: ((Nat.repr k).data ++ '\'' :: rest) := by simp [placeholderL]
    rw [hph, numOutFrom_cons]
    rw [numStep_ready_pass k2 (some '\'') (by decide)]
    dsimp only
    rw [numOutFrom_append]
    obtain ⟨p2, hdig⟩ := numRun_digits (Nat.repr k).data k2 (some '$')
      (repr_digits k) numStartOk_dollar
    rw [hdig]
    dsimp only
    rw [numOutFrom_cons]
    rw [numStep_ready_pass k2 p2
      (by rw [show ('\''.isDigit) = false from rfl]; exact Bool.false_and _)]
    dsimp only
    have hrw : (mrun numStep st a).2.1 ++
        ((pre ++ ['\'']) ++
          (['$'] ++ ((Nat.repr k).data ++
            (['\''] ++ numOutFrom (k2, NumMode.ready (some '\'')) rest)))) =
        ((mrun numStep st a).2.1 ++ pre) ++
          '\'' :: (placeholderL k ++
            '\'' :: numOutFrom (k2, NumMode.ready (some '\'')) rest) := by
      simp [placeholderL]
    rw [hrw]
    refine QShape.block k _ _ ?_ (ih (k2, NumMode.ready (some '\'')) trivial)
    exact quoteFree_append (numRun_qfree a st hacc ha)
      (fun hm => nspecial_not_quote (hpre _ hm) rfl)

theorem numOut_safe : ∀ (s : List Char) (st : Nat × NumMode) (p : Option Char),
    (∀ prev, st.2 = NumMode.ready prev → prev = p) → AccDigits st →
    NumSafe p (numOutFrom st s) := by
  intro s
  induction s with
  | nil =>
    intro st p hinv hacc
    obtain ⟨k, m⟩ := st
    unfold numOutFrom
    rw [mrun_nil]
    dsimp only
    cases m with
    | ready prev => exact trivial
    | num acc => exact numSafe_ph p k
    | dotp acc =>
      rw [List.nil_append]
      refine numSafe_append (numSafe_ph p k) ⟨?_, trivial⟩
      intro hd
      exact absurd hd (by decide)
    | frac acc facc => exact numSafe_ph p k
  | cons c cs ih =>
    intro st p hinv hacc
    obtain ⟨k, m⟩ := st
    rw [numOutFrom_cons]
    cases m with
    | ready prev =>
      have hp : prev = p := hinv prev rfl
      subst hp
      by_cases hg : (c.isDigit && numStartOk prev) = true
      · rw [numStep_ready_match k prev hg]
        dsimp only
        rw [List.nil_append]
        refine ih (k, NumMode.num [c]) prev (fun q hq => by cases hq) ?_
        intro x hx
        simp only [List.mem_singleton] at hx
        rw [hx]
        rw [Bool.and_eq_true] at hg
        exact hg.1
      · have hg2 : (c.isDigit && numStartOk prev) = false := by
          revert hg; cases (c.isDigit && numStartOk prev) <;> simp
        rw [numStep_ready_pass k prev hg2]
        dsimp only
        refine numSafe_append ⟨?_, trivial⟩ ?_
        · intro hd
          refine Or.inl ?_
          rcases Bool.and_eq_false_iff.mp hg2 with h1 | h1
          · rw [hd] at h1; cases h1
          · exact h1
        · rw [lastCharOr_cons, lastCharOr_nil]
          exact ih (k, NumMode.ready (some c)) (some c)
            (fun q hq => ((NumMode.ready.inj hq)).symm) trivial
    | num acc =>
      by_cases hd : c.isDigit = true
      · rw [numStep_num_digit k acc hd]
        dsimp only
        rw [List.nil_append]
        refine ih (k, NumMode.num (acc ++ [c])) p (fun q hq => by cases hq) ?_
        intro x hx
        rcases List.mem_append.mp hx with h1 | h1
        · exact hacc x h1
        · simp only [List.mem_singleton] at h1
          rw [h1]
          exact hd
      · have hd2 : c.isDigit = false := by revert hd; cases c.isDigit <;> simp
        by_cases hdot : (c == '.') = true
        · have hc : c = '.' := by simpa using hdot
          subst hc
          rw [numStep_num_dot k acc]
          dsimp only
          rw [List.nil_append]
          exact ih (k, NumMode.dotp acc) p (fun q hq => by cases hq) hacc
        · have hdot2 : (c == '.') = false := by revert hdot; cases (c == '.') <;> simp
          by_cases hw : isWordChar c = true
          · rw [numStep_num_word k acc hd2 hdot2 hw]
            dsimp only
            refine numSafe_append
              (numSafe_digits_word_cont hacc hw hd2
                (show NumSafe (some c) [] from trivial) p) ?_
            rw [lastCharOr_concat]
            exact ih (k, NumMode.ready (some c)) (some c)
              (fun q hq => ((NumMode.ready.inj hq)).symm) trivial
          · have hw2 : isWordChar c = false := by revert hw; cases isWordChar c <;> simp
            rw [numStep_num_flush k acc hd2 hdot2 hw2]
            dsimp only
            refine numSafe_append
              (numSafe_append (numSafe_ph p k)
                ⟨fun hdd => absurd hdd (by rw [hd2]; intro hh; cases hh), trivial⟩) ?_
            rw [lastCharOr_concat]
            exact ih (k + 1, NumMode.ready (some c)) (some c)
              (fun q hq => ((NumMode.ready.inj hq)).symm) trivial
    | dotp acc =>
      by_cases hd : c.isDigit = true
      · rw [numStep_dotp_digit k acc hd]
        dsimp only
        rw [List.nil_append]
        refine ih (k, NumMode.frac acc [c]) p (fun q hq => by cases hq) ⟨hacc, ?_⟩
        intro x hx
        simp only [List.mem_singleton] at hx
        rw [hx]
        exact hd
      · have hd2 : c.isDigit = false := by revert hd; cases c.isDigit <;> simp
        rw [numStep_dotp_flush k acc hd2]
        dsimp only
        have hsplit : placeholderL k ++ ('.' :: [c]) = (placeholderL k ++ ['.']) ++ [c] := by
          simp
        rw [hsplit]
        refine numSafe_append
          (numSafe_append
            (numSafe_append (numSafe_ph p k) ⟨fun hdd => absurd hdd (by decide), trivial⟩)
            ⟨fun hdd => absurd hdd (by rw [hd2]; intro hh; cases hh), trivial⟩) ?_
        rw [lastCharOr_concat]
        exact ih (k + 1, NumMode.ready (some c)) (some c)
          (fun q hq => ((NumMode.ready.inj hq)).symm) trivial
    | frac acc facc =>
      by_cases hd : c.isDigit = true
      · rw [numStep_frac_digit k acc facc hd]
        dsimp only
        rw [List.nil_append]
        refine ih (k, NumMode.frac acc (facc ++ [c])) p (fun q hq => by cases hq)
          ⟨hacc.1, ?_⟩
        intro x hx
        rcases List.mem_append.mp hx with h1 | h1
        · exact hacc.2 x h1
        · simp only [List.mem_singleton] at h1
          rw [h1]
          exact hd
      · have hd2 : c.isDigit = false := by revert hd; cases c.isDigit <;> simp
        by_cases hw : isWordChar c = true
        · rw [numStep_frac_word k acc facc hd2 hw]
          dsimp only
          refine numSafe_append ?_ ?_
          · refine numSafe_append (numSafe_ph p k) ?_
            refine ⟨fun hdd => absurd hdd (by decide), ?_⟩
            exact numSafe_digits_word_cont hacc.2 hw hd2
              (show NumSafe (some c) [] from trivial) (some '.')
          · rw [show placeholderL k ++ ('.' :: (facc ++ [c])) =
                (placeholderL k ++ '.' :: facc) ++ [c] from by simp]
            rw [lastCharOr_concat]
            exact ih (k + 1, NumMode.ready (some c)) (some c)
              (fun q hq => ((NumMode.ready.inj hq)).symm) trivial
        · have hw2 : isWordChar c = false := by revert hw; cases isWordChar c <;> simp
          rw [numStep_frac_flush k acc facc hd2 hw2]
          dsimp only
          refine numSafe_append
            (numSafe_append (numSafe_ph p k)
              ⟨fun hdd => absurd hdd (by rw [hd2]; intro hh; cases hh), trivial⟩) ?_
          rw [lastCharOr_concat]
          exact ih (k + 1, NumMode.ready (some c)) (some c)
            (fun q hq => ((NumMode.ready.inj hq)).symm) trivial

theorem numRun_escape : ∀ (ds : List Char) (k : Nat) (acc : List Char) (w : Char)
    (rest : List Char), (∀ d ∈ ds, d.isDigit = true) → isWordChar w = true →
    w.isDigit = false →
    mrun numStep (k, NumMode.num acc) (ds ++ w :: rest) =
      ((mrun numStep (k, NumMode.ready (some w)) rest).1,
        ((acc ++ ds) ++ [w]) ++ (mrun numStep (k, NumMode.ready (some w)) rest).2.1,
        (mrun numStep (k, NumMode.ready (some w)) rest).2.2) := by
  intro ds
  induction ds with
  | nil =>
    intro k acc w rest _ hw hwd
    have hdot : (w == '.') = false := by
      rw [beq_eq_false_iff_ne]
      intro he
      rw [he] at hw
      exact absurd hw (by decide)
    rw [List.nil_append, mrun_cons, numStep_num_word k acc hwd hdot hw]
    dsimp only
    simp

  | cons d ds' ih =>
    intro k acc w rest hds hw hwd
    rw [List.cons_append, mrun_cons,
      numStep_num_digit k acc (hds d (List.mem_cons_self _ _))]
    dsimp only
    rw [ih k (acc ++ [d]) w rest (fun e he => hds e (List.mem_cons_of_mem _ he)) hw hwd]
    simp

theorem numRun_safe_aux : ∀ (n : Nat) (s : List Char), s.length ≤ n →
    ∀ (k : Nat) (p : Option Char), NumSafe p s →
    ∃ p2, mrun numStep (k, NumMode.ready p) s = ((k, NumMode.ready p2), s, []) := by
  intro n
  induction n with
  | zero =>
    intro s hlen k p _
    have hs : s = [] := List.eq_nil_of_length_eq_zero (Nat.le_zero.mp hlen)
    subst hs
    exact ⟨p, rfl⟩
  | succ n ih =>
    intro s hlen k p h
    cases s with
    | nil => exact ⟨p, rfl⟩
    | cons c cs =>
      have hlen' : cs.length ≤ n := by
        simp only [List.length_cons] at hlen
        omega
      by_cases hg : (c.isDigit && numStartOk p) = true
      · have hg0 := hg
        rw [Bool.and_eq_true] at hg0
        obtain ⟨hcd, hok⟩ := hg0
        rcases h.1 hcd with h1 | h1
        · rw [hok] at h1; cases h1
        · obtain ⟨ds, w, t, hcs, hds, hw, hwd⟩ := escapes_decomp h1 hcd
          have hlt : t.length ≤ n := by
            rw [hcs] at hlen'
            simp only [List.length_append, List.length_cons] at hlen'
            omega
          have hsafe_t : NumSafe (some w) t := by
            have h' : NumSafe p ((c :: (ds ++ [w])) ++ t) := by
              rw [show (c :: (ds ++ [w])) ++ t = c :: (ds ++ w :: t) from by simp]
              rw [← hcs]
              exact h
            have h'' := numSafe_of_append_right h'
            rwa [show lastCharOr p (c :: (ds ++ [w])) = some w from
              lastCharOr_concat p (c :: ds) w] at h''
          obtain ⟨p2, hrest⟩ := ih t hlt k (some w) hsafe_t
          refine ⟨p2, ?_⟩
          rw [hcs, mrun_cons, numStep_ready_match k p hg]
          dsimp only
          rw [numRun_escape ds k [c] w t hds hw hwd]
          rw [hrest]
          dsimp only
          simp
      · have hg2 : (c.isDigit && numStartOk p) = false := by
          revert hg; cases (c.isDigit && numStartOk p) <;> simp
        obtain ⟨p2, hr⟩ := ih cs hlen' k (some c) h.2
        refine ⟨p2, ?_⟩
        rw [mrun_cons, numStep_ready_pass k p hg2]
        dsimp only
        rw [hr]
        rfl

theorem numRun_safe (s : List Char) (k : Nat) (p : Option Char) (h : NumSafe p s) :
    ∃ p2, mrun numStep (k, NumMode.ready p) s = ((k, NumMode.ready p2), s, []) :=
  numRun_safe_aux s.length s (Nat.le_refl _) k p h

theorem numberSub_safe (k : Nat) (s : List Char) : NumSafe none (numberSubL k s).1 := by
  rw [numberSubL_fst]
  exact numOut_safe s (k, NumMode.ready none) none
    (fun q hq => ((NumMode.ready.inj hq)).symm) trivial

theorem numberSub_shape {m : Nat} {s : List Char} (h : QShape m s) (k : Nat) :
    QShape m (numberSubL k s).1 := by
  rw [numberSubL_fst]
  exact numPass_shape h (k, NumMode.ready none) trivial

theorem numberSub_id (k : Nat) {u : List Char} (h : NumSafe none u) :
    (numberSubL k u).1 = u := by
  rw [numberSubL_fst]
  obtain ⟨p2, hr⟩ := numRun_safe u k none h
  unfold numOutFrom
  rw [hr]
  dsimp only [numFinal]
  simp

theorem numberSub_mem (k : Nat) (s : List Char) (x : Char)
    (h : x ∈ (numberSubL k s).1) : x ∈ s ∨ NSpecial x := by
  rw [numberSubL_fst] at h
  exact numOutFrom_mem s (k, NumMode.ready none) trivial x h

end HCNav


namespace HCNav

/-! ### The whitespace-collapsing pass -/

theorem wsStep_nonws (b : Bool) {c : Char} (h : c.isWhitespace = false) :
    wsStep b c = (false, [c], []) := by
  simp [wsStep, h]

theorem wsStep_ws (b : Bool) {c : Char} (h : c.isWhitespace = true) :
    wsStep b c = (true, if b then [] else [' '], []) := by
  simp [wsStep, h]

theorem wsOutFrom_cons (b : Bool) (c : Char) (t : List Char) :
    wsOutFrom b (c :: t) = (wsStep b c).2.1 ++ wsOutFrom (wsStep b c).1 t := by
  unfold wsOutFrom
  rw [mrun_cons]

theorem wsOutFrom_append (b : Bool) (x y : List Char) :
    wsOutFrom b (x ++ y) = wsOutFrom b x ++ wsOutFrom (mrun wsStep b x).1 y := by
  unfold wsOutFrom
  rw [mrun_append]

theorem wsMem : ∀ (s : List Char) (b : Bool) (x : Char),
    x ∈ wsOutFrom b s → x ∈ s ∨ x = ' ' := by
  intro s
  induction s with
  | nil => intro b x hx; cases hx
  | cons c cs ih =>
    intro b x hx
    rw [wsOutFrom_cons] at hx
    by_cases hw : c.isWhitespace = true
    · rw [wsStep_ws b hw] at hx
      dsimp only at hx
      rcases List.mem_append.mp hx with h | h
      · cases b with
        | true => simp at h
        | false =>
          rw [if_neg (show ¬(false = true) from by decide)] at h
          simp only [List.mem_singleton] at h
          exact Or.inr h
      · rcases ih _ x h with h1 | h1
        · exact Or.inl (List.mem_cons_of_mem _ h1)
        · exact Or.inr h1
    · have hw2 : c.isWhitespace = false := by revert hw; cases c.isWhitespace <;> simp
      rw [wsStep_nonws b hw2] at hx
      dsimp only at hx
      rcases List.mem_append.mp hx with h | h
      · simp only [List.mem_singleton] at h
        exact Or.inl (by rw [h]; exact List.mem_cons_self _ _)
      · rcases ih _ x h with h1 | h1
        · exact Or.inl (List.mem_cons_of_mem _ h1)
        · exact Or.inr h1

theorem wsOut_qfree (s : List Char) (b : Bool) (h : quoteFree s) :
    quoteFree (wsOutFrom b s) := by
  intro hm
  rcases wsMem s b '\'' hm with h1 | h1
  · exact h h1
  · cases h1

theorem wsRun_nonws : ∀ (x : List Char) (b : Bool),
    (∀ c ∈ x, c.isWhitespace = false) → x ≠ [] →
    mrun wsStep b x = (false, x, []) := by
  intro x
  induction x with
  | nil => intro b _ hne; exact absurd rfl hne
  | cons c cs ih =>
    intro b h _
    rw [mrun_cons, wsStep_nonws b (h c (List.mem_cons_self _ _))]
    dsimp only
    cases cs with
    | nil => rfl
    | cons d ds =>
      rw [ih false (fun e he => h e (List.mem_cons_of_mem _ he)) (by intro hh; cases hh)]
      rfl

theorem wsOut_nonws (x : List Char) (b : Bool)
    (h : ∀ c ∈ x, c.isWhitespace = false) : wsOutFrom b x = x := by
  cases x with
  | nil => rfl
  | cons c cs =>
    unfold wsOutFrom
    rw [wsRun_nonws (c :: cs) b h (by intro hh; cases hh)]

theorem wsRun_ok : ∀ (s : List Char) (b : Bool), WsOk b (wsOutFrom b s) := by
  intro s
  induction s with
  | nil => intro b; trivial
  | cons c cs ih =>
    intro b
    rw [wsOutFrom_cons]
    by_cases hw : c.isWhitespace = true
    · rw [wsStep_ws b hw]
      dsimp only
      cases b with
      | true =>
        rw [if_pos rfl, List.nil_append]
        exact ih true
      | false =>
        rw [if_neg (by intro hh; cases hh), List.singleton_append]
        exact ⟨fun _ => ⟨rfl, rfl⟩, ih true⟩
    · have hw2 : c.isWhitespace = false := by revert hw; cases c.isWhitespace <;> simp
      rw [wsStep_nonws b hw2]
      dsimp only
      rw [List.singleton_append]
      refine ⟨fun hd => absurd hd (by rw [hw2]; intro hh; cases hh), ?_⟩
      rw [hw2]
      exact ih false

theorem wsPass_shape {m : Nat} {s : List Char} (h : QShape m s) :
    ∀ b : Bool, QShape m (wsOutFrom b s) := by
  induction h with
  | done k a ha =>
    intro b
    exact QShape.done k _ (wsOut_qfree a b ha)
  | dangling k a t ha ht =>
    intro b
    rw [wsOutFrom_append, wsOutFrom_cons, wsStep_nonws _ (by decide)]
    dsimp only
    rw [List.singleton_append]
    exact QShape.dangling k _ _ (wsOut_qfree a _ ha) (wsOut_qfree t _ ht)
  | block k a rest ha hrest ih =>
    intro b
    rw [wsOutFrom_append, wsOutFrom_cons, wsStep_nonws _ (by decide)]
    dsimp only
    rw [List.singleton_append]
    rw [wsOutFrom_append]
    rw [wsRun_nonws (placeholderL k) false (placeholder_no_ws k) (by simp [placeholderL])]
    dsimp only
    rw [wsOut_nonws (placeholderL k) false (placeholder_no_ws k)]
    rw [wsOutFrom_cons, wsStep_nonws _ (by decide)]
    dsimp only
    rw [List.singleton_append]
    exact QShape.block k _ _ (wsOut_qfree a _ ha) (ih false)

theorem wsNumSafe_aux : ∀ (n : Nat) (s : List Char), s.length ≤ n →
    ∀ (b : Bool) (p q : Option Char),
    NumSafe p s → (∀ x, p = some x → x.isWhitespace = false → q = some x) →
    NumSafe q (wsOutFrom b s) := by
  intro n
  induction n with
  | zero =>
    intro s hlen b p q _ _
    have hs : s = [] := List.eq_nil_of_length_eq_zero (Nat.le_zero.mp hlen)
    subst hs
    trivial
  | succ n ih =>
    intro s hlen b p q h hrel
    cases s with
    | nil => trivial
    | cons c cs =>
      have hlen' : cs.length ≤ n := by
        simp only [List.length_cons] at hlen
        omega
      by_cases hw : c.isWhitespace = true
      · rw [wsOutFrom_cons, wsStep_ws b hw]
        dsimp only
        cases b with
        | true =>
          rw [if_pos rfl, List.nil_append]
          exact ih cs hlen' true (some c) q h.2
            (fun x hx hxw => by
              have hcx : c = x := Option.some.inj hx
              rw [hcx, hxw] at hw
              cases hw)
        | false =>
          rw [if_neg (show ¬(false = true) from by decide), List.singleton_append]
          refine ⟨fun hd => absurd hd (by decide), ?_⟩
          exact ih cs hlen' true (some c) (some ' ') h.2
            (fun x hx hxw => by
              have hcx : c = x := Option.some.inj hx
              rw [hcx, hxw] at hw
              cases hw)
      · have hw2 : c.isWhitespace = false := by revert hw; cases c.isWhitespace <;> simp
        by_cases hd : c.isDigit = true
        · rcases h.1 hd with h1 | h1
          · rw [wsOutFrom_cons, wsStep_nonws b hw2]
            dsimp only
            rw [List.singleton_append]
            refine ⟨fun _ => Or.inl ?_, ?_⟩
            · rcases numStartOk_false_cases h1 with ⟨x, hp, hx⟩
              have hxw : x.isWhitespace = false := by
                rcases hx with h2 | h2
                · exact wordchar_not_ws h2
                · rw [h2]; decide
              rw [hrel x hp hxw]
              rw [hp] at h1
              exact h1
            · exact ih cs hlen' false (some c) (some c) h.2 (fun x hx _ => hx)
          · obtain ⟨ds, w, t, hcs, hds, hww, hwd⟩ := escapes_decomp h1 hd
            have hnws : ∀ z ∈ (c :: ds) ++ [w], z.isWhitespace = false := by
              intro z hz
              rcases List.mem_append.mp hz with h2 | h2
              · rcases List.mem_cons.mp h2 with h3 | h3
                · rw [h3]; exact hw2
                · exact digit_not_ws (hds z h3)
              · simp only [List.mem_singleton] at h2
                rw [h2]
                exact wordchar_not_ws hww
            have hsplit : c :: cs = ((c :: ds) ++ [w]) ++ t := by
              rw [hcs]; simp
            rw [hsplit, wsOutFrom_append]
            rw [wsOut_nonws ((c :: ds) ++ [w]) b hnws]
            rw [wsRun_nonws ((c :: ds) ++ [w]) b hnws (by simp)]
            dsimp only
            have hsafe_t : NumSafe (some w) t := by
              have h' : NumSafe p (((c :: ds) ++ [w]) ++ t) := by
                rw [← hsplit]
                exact h
              have h'' := numSafe_of_append_right h'
              rwa [lastCharOr_concat] at h''
            have hlt : t.length ≤ n := by
              rw [hcs] at hlen'
              simp only [List.length_append, List.length_cons] at hlen'
              omega
            have hrec : NumSafe (some w) (wsOutFrom false t) :=
              ih t hlt false (some w) (some w) hsafe_t (fun x hx _ => hx)
            rw [show ((c :: ds) ++ [w]) ++ wsOutFrom false t =
                (c :: ds) ++ w :: wsOutFrom false t from by simp]
            refine numSafe_digits_word_cont ?_ hww hwd hrec q
            intro e he
            rcases List.mem_cons.mp he with h3 | h3
            · rw [h3]; exact hd
            · exact hds e h3
        · have hd2 : c.isDigit = false := by revert hd; cases c.isDigit <;> simp
          rw [wsOutFrom_cons, wsStep_nonws b hw2]
          dsimp only
          rw [List.singleton_append]
          refine ⟨fun hdd => absurd hdd (by rw [hd2]; intro hh; cases hh), ?_⟩
          exact ih cs hlen' false (some c) (some c) h.2 (fun x hx _ => hx)

theorem wsNumSafe (s : List Char) (b : Bool) (p q : Option Char)
    (h : NumSafe p s) (hrel : ∀ x, p = some x → x.isWhitespace = false → q = some x) :
    NumSafe q (wsOutFrom b s) :=
  wsNumSafe_aux s.length s (Nat.le_refl _) b p q h hrel

theorem wsRun_id : ∀ (s : List Char) (b : Bool), WsOk b s → wsOutFrom b s = s := by
  intro s
  induction s with
  | nil => intro b _; rfl
  | cons c cs ih =>
    intro b h
    rw [wsOutFrom_cons]
    by_cases hw : c.isWhitespace = true
    · obtain ⟨hc, hb⟩ := h.1 hw
      subst hb
      rw [wsStep_ws false hw]
      dsimp only
      rw [if_neg (by intro hh; cases hh), List.singleton_append]
      have h2 := h.2
      rw [hw] at h2
      rw [ih true h2, hc]
    · have hw2 : c.isWhitespace = false := by revert hw; cases c.isWhitespace <;> simp
      rw [wsStep_nonws b hw2]
      dsimp only
      rw [List.singleton_append]
      have h2 := h.2
      rw [hw2] at h2
      rw [ih false h2]

theorem wsCollapseL_eq (s : List Char) : wsCollapseL s = wsOutFrom false s := rfl

theorem wsCollapse_ok (s : List Char) : WsOk false (wsCollapseL s) := wsRun_ok s false

theorem wsCollapse_shape {m : Nat} {s : List Char} (h : QShape m s) :
    QShape m (wsCollapseL s) := wsPass_shape h false

theorem wsCollapse_numSafe {s : List Char} (h : NumSafe none s) :
    NumSafe none (wsCollapseL s) :=
  wsNumSafe s false none none h (fun _ hx _ => hx)

theorem wsCollapse_id {u : List Char} (h : WsOk false u) : wsCollapseL u = u :=
  wsRun_id u false h

theorem wsCollapse_mem (s : List Char) (x : Char) (h : x ∈ wsCollapseL s) :
    x ∈ s ∨ x = ' ' := wsMem s false x h

end HCNav

namespace HCNav

/-! ### The final strip -/

theorem stripL_eq (s : List Char) :
    stripL s = rdropL Char.isWhitespace (s.dropWhile Char.isWhitespace) := rfl

theorem mem_of_mem_dropWhile {p : Char → Bool} {x : Char} {l : List Char}
    (h : x ∈ l.dropWhile p) : x ∈ l :=
  (List.dropWhile_sublist p).subset h

theorem mem_of_mem_rdropL {p : Char → Bool} {x : Char} {l : List Char}
    (h : x ∈ rdropL p l) : x ∈ l := by
  unfold rdropL at h
  rw [List.mem_reverse] at h
  exact List.mem_reverse.mp (mem_of_mem_dropWhile h)

theorem dropWhile_dropWhile (p : Char → Bool) (l : List Char) :
    (l.dropWhile p).dropWhile p = l.dropWhile p := by
  cases h : l.dropWhile p with
  | nil => rfl
  | cons c cs =>
    rw [List.dropWhile_cons, if_neg]
    intro hc
    rw [dropWhile_head_not h] at hc
    cases hc

theorem rdropL_idem (p : Char → Bool) (l : List Char) :
    rdropL p (rdropL p l) = rdropL p l := by
  unfold rdropL
  rw [List.reverse_reverse, dropWhile_dropWhile]

theorem stripL_idem (s : List Char) : stripL (stripL s) = stripL s := by
  rw [stripL_eq s, stripL_eq]
  have hA : (rdropL Char.isWhitespace
      (s.dropWhile Char.isWhitespace)).dropWhile Char.isWhitespace =
      rdropL Char.isWhitespace (s.dropWhile Char.isWhitespace) := by
    cases hu : rdropL Char.isWhitespace (s.dropWhile Char.isWhitespace) with
    | nil => rfl
    | cons c cs =>
      rw [List.dropWhile_cons, if_neg]
      intro hc
      obtain ⟨t, hv, _⟩ := rdropL_decomp Char.isWhitespace (s.dropWhile Char.isWhitespace)
      rw [hu, List.cons_append] at hv
      rw [dropWhile_head_not hv] at hc
      cases hc
  rw [hA, rdropL_idem]

theorem dropWs_append_quote (a X : List Char) :
    (a ++ '\'' :: X).dropWhile Char.isWhitespace =
      a.dropWhile Char.isWhitespace ++ '\'' :: X := by
  rw [List.dropWhile_append]
  by_cases he : (a.dropWhile Char.isWhitespace).isEmpty = true
  · rw [if_pos he, List.isEmpty_iff.mp he, List.nil_append, List.dropWhile_cons,
      if_neg (by decide)]
  · rw [if_neg he]

theorem rdrop_append_quote (a X : List Char) :
    rdropL Char.isWhitespace (a ++ '\'' :: X) =
      a ++ '\'' :: rdropL Char.isWhitespace X := by
  rw [rdropL_append, if_neg (rdropL_ne_nil_of_head X (by decide)),
    rdropL_cons_of_head X (by decide)]

theorem qshape_dropWs {m : Nat} {l : List Char} (h : QShape m l) :
    QShape m (l.dropWhile Char.isWhitespace) := by
  induction h with
  | done k a ha =>
    exact QShape.done k _ (fun hm => ha (mem_of_mem_dropWhile hm))
  | dangling k a t ha ht =>
    rw [dropWs_append_quote]
    exact QShape.dangling k _ t (fun hm => ha (mem_of_mem_dropWhile hm)) ht
  | block k a rest ha hrest ih =>
    rw [dropWs_append_quote]
    exact QShape.block k _ rest (fun hm => ha (mem_of_mem_dropWhile hm)) hrest

theorem qshape_rdropWs {m : Nat} {l : List Char} (h : QShape m l) :
    QShape m (rdropL Char.isWhitespace l) := by
  induction h with
  | done k a ha =>
    exact QShape.done k _ (fun hm => ha (mem_of_mem_rdropL hm))
  | dangling k a t ha ht =>
    rw [rdrop_append_quote]
    exact QShape.dangling k a _ ha (fun hm => ht (mem_of_mem_rdropL hm))
  | block k a rest ha hrest ih =>
    rw [rdrop_append_quote, rdrop_append_quote]
    exact QShape.block k a _ ha ih

theorem qshape_strip {m : Nat} {l : List Char} (h : QShape m l) :
    QShape m (stripL l) := by
  rw [stripL_eq]
  exact qshape_rdropWs (qshape_dropWs h)

theorem numSafe_rdropWs (p : Option Char) (l : List Char)
    (h : NumSafe p l) : NumSafe p (rdropL Char.isWhitespace l) := by
  obtain ⟨t, hl, ht⟩ := rdropL_decomp Char.isWhitespace l
  rw [hl] at h
  exact numSafe_of_append_left_nonword h (fun z hz => ws_not_word (ht z hz))

theorem numSafe_dropWs {l : List Char} (h : NumSafe none l) :
    NumSafe none (l.dropWhile Char.isWhitespace) := by
  have hdec : l = l.takeWhile Char.isWhitespace ++ l.dropWhile Char.isWhitespace :=
    (List.takeWhile_append_dropWhile _ l).symm
  have hsuf : NumSafe (lastCharOr none (l.takeWhile Char.isWhitespace))
      (l.dropWhile Char.isWhitespace) := by
    rw [hdec] at h
    exact numSafe_of_append_right h
  have hq : numStartOk (lastCharOr none (l.takeWhile Char.isWhitespace)) = true := by
    cases hw : (l.takeWhile Char.isWhitespace).getLast? with
    | none =>
      unfold lastCharOr
      rw [hw]
      rfl
    | some y =>
      have hym : y ∈ l.takeWhile Char.isWhitespace := List.mem_of_getLast?_eq_some hw
      have hyw : y.isWhitespace = true := List.mem_takeWhile_imp hym
      have hle : lastCharOr none (l.takeWhile Char.isWhitespace) = some y := by
        unfold lastCharOr
        rw [hw]
      rw [hle, numStartOk, ws_not_word hyw]
      rw [show (y == '$') = false from by
        rw [beq_eq_false_iff_ne]
        intro he
        rw [he] at hyw
        exact absurd hyw (by decide)]
      rfl
  exact numSafe_of_startOk hsuf hq none

theorem numSafe_strip {l : List Char} (h : NumSafe none l) :
    NumSafe none (stripL l) := by
  rw [stripL_eq]
  exact numSafe_rdropWs none _ (numSafe_dropWs h)

theorem wsOk_rdropL (b : Bool) (q : Char → Bool) (l : List Char)
    (h : WsOk b l) : WsOk b (rdropL q l) := by
  obtain ⟨t, hl, _⟩ := rdropL_decomp q l
  rw [hl] at h
  exact wsOk_of_append_left h

theorem wsOk_dropWs {l : List Char} (h : WsOk false l) :
    WsOk false (l.dropWhile Char.isWhitespace) := by
  have hdec : l = l.takeWhile Char.isWhitespace ++ l.dropWhile Char.isWhitespace :=
    (List.takeWhile_append_dropWhile _ l).symm
  have hsuf : WsOk (lastWsFlag false (l.takeWhile Char.isWhitespace))
      (l.dropWhile Char.isWhitespace) := by
    rw [hdec] at h
    exact wsOk_of_append_right h
  cases hv : l.dropWhile Char.isWhitespace with
  | nil => trivial
  | cons c cs =>
    rw [hv] at hsuf
    exact wsOk_change_flag hsuf (dropWhile_head_not hv)

theorem wsOk_strip {l : List Char} (h : WsOk false l) : WsOk false (stripL l) := by
  rw [stripL_eq]
  exact wsOk_rdropL false Char.isWhitespace _ (wsOk_dropWs h)

end HCNav

namespace HCNav

/-! ### Lowercase invariance and the assembled idempotence theorem -/

theorem lowerL_id {u : List Char} (h : AllLower u) : lowerL u = u := by
  induction u with
  | nil => rfl
  | cons c cs ih =>
    unfold lowerL at ih ⊢
    rw [List.map_cons, h c (List.mem_cons_self _ _),
      ih (fun x hx => h x (List.mem_cons_of_mem _ hx))]

theorem allLower_lowerL (x : List Char) : AllLower (lowerL x) := by
  intro c hc
  rcases List.mem_map.mp hc with ⟨d, _, hd⟩
  rw [← hd]
  exact toLower_toLower d

theorem allLower_str {s : List Char} (h : AllLower s) (k : Nat) :
    AllLower ((stringSubL k s).1) := by
  intro c hc
  rw [stringSubL_fst] at hc
  rcases strMem s k none c hc with h1 | h1 | ⟨a, ha, _⟩
  · exact h c h1
  · exact toLower_special h1
  · cases ha

theorem allLower_num {s : List Char} (h : AllLower s) (k : Nat) :
    AllLower ((numberSubL k s).1) := by
  intro c hc
  rcases numberSub_mem k s c hc with h1 | h1
  · exact h c h1
  · exact toLower_special (nspecial_special h1)

theorem allLower_ws {s : List Char} (h : AllLower s) :
    AllLower (wsCollapseL s) := by
  intro c hc
  rcases wsCollapse_mem s c hc with h1 | h1
  · exact h c h1
  · rw [h1]; decide

theorem allLower_strip {s : List Char} (h : AllLower s) : AllLower (stripL s) :=
  fun c hc => h c (mem_of_mem_stripL hc)

theorem basic_normalize_data (sql : String) :
    (basic_normalize sql).1.data =
      stripL (wsCollapseL
        (numberSubL (stringSubL 1 (lowerL sql.data)).2.2
          (stringSubL 1 (lowerL sql.data)).1).1) := rfl

theorem basic_normalize_invariants (sql : String) :
    AllLower ((basic_normalize sql).1.data) ∧
    QShape 1 ((basic_normalize sql).1.data) ∧
    NumSafe none ((basic_normalize sql).1.data) ∧
    WsOk false ((basic_normalize sql).1.data) ∧
    stripL ((basic_normalize sql).1.data) = (basic_normalize sql).1.data := by
  rw [basic_normalize_data]
  refine ⟨?_, ?_, ?_, ?_, ?_⟩
  · exact allLower_strip (allLower_ws (allLower_num (allLower_str (allLower_lowerL _) 1) _))
  · exact qshape_strip (wsCollapse_shape (numberSub_shape (strOut_shape _ 1) _))
  · exact numSafe_strip (wsCollapse_numSafe (numberSub_safe _ _))
  · exact wsOk_strip (wsCollapse_ok _)
  · exact stripL_idem _

theorem basic_normalize_fixed {u : List Char}
    (h1 : AllLower u) (h2 : QShape 1 u) (h3 : NumSafe none u) (h4 : WsOk false u)
    (h5 : stripL u = u) :
    (basic_normalize (String.mk u)).1 = String.mk u := by
  have hfst : (basic_normalize (String.mk u)).1 =
      String.mk (stripL (wsCollapseL
        (numberSubL (stringSubL 1 (lowerL u)).2.2 (stringSubL 1 (lowerL u)).1).1)) := rfl
  rw [hfst, lowerL_id h1, strId h2, numberSub_id _ h3, wsCollapse_id h4, h5]

theorem basic_normalize_idem (sql : String) :
    (basic_normalize (basic_normalize sql).1).1 = (basic_normalize sql).1 := by
  obtain ⟨h1, h2, h3, h4, h5⟩ := basic_normalize_invariants sql
  have hmk : String.mk ((basic_normalize sql).1.data) = (basic_normalize sql).1 := rfl
  calc (basic_normalize (basic_normalize sql).1).1
      = (basic_normalize (String.mk ((basic_normalize sql).1.data))).1 := by rw [hmk]
    _ = String.mk ((basic_normalize sql).1.data) :=
        basic_normalize_fixed h1 h2 h3 h4 h5
    _ = (basic_normalize sql).1 := hmk

end HCNav

namespace HCNav

/-- C6, counterexample to the claim as stated: normalization is not
idempotent on the sqlglot path.  With an oracle that re-prints SQL the way
sqlglot does (upper-case keywords, explicit `ASC` preserved), the first
normalization of `SELECT provider_name FROM providers ORDER BY
provider_name ASC` applies the ASC rule, whose replacement text `ORDER BY`
is upper case although it runs after lowercasing; the second normalization
lowercases it again and the ASC rule no longer fires, so the result
differs. -/
theorem c6_asc_counterexample :
    (normalize_sql sqlglotAscOracle
        "SELECT provider_name FROM providers ORDER BY provider_name ASC").1 =
      "select provider_name from providers ORDER BY provider_name" ∧
    (normalize_sql sqlglotAscOracle
        (normalize_sql sqlglotAscOracle
          "SELECT provider_name FROM providers ORDER BY provider_name ASC").1).1 =
      "select provider_name from providers order by provider_name" ∧
    (normalize_sql sqlglotAscOracle
        (normalize_sql sqlglotAscOracle
          "SELECT provider_name FROM providers ORDER BY provider_name ASC").1).1 ≠
      (normalize_sql sqlglotAscOracle
        "SELECT provider_name FROM providers ORDER BY provider_name ASC").1 := by
  refine ⟨by decide, by decide, by decide⟩

/-- C6 (amended): normalization is idempotent on the fallback path.  For
every SQL string on which the sqlglot oracle fails to parse (both on the
original SQL and on its normalization), `SQLNormalizer.normalize_sql`
falls back to `_basic_normalize`, and re-normalizing the resulting
canonical SQL yields it unchanged: the canonical SQL is a fixed point. -/
theorem c6_fallback_idempotent (G : String → Option String) (s : String)
    (h1 : G s = none) (h2 : G (normalize_sql G s).1 = none) :
    (normalize_sql G (normalize_sql G s).1).1 = (normalize_sql G s).1 := by
  have e1 : normalize_sql G s = basic_normalize s := by
    unfold normalize_sql
    rw [h1]
  rw [e1] at h2 ⊢
  have e2 : normalize_sql G (basic_normalize s).1 =
      basic_normalize (basic_normalize s).1 := by
    unfold normalize_sql
    rw [h2]
  rw [e2]
  exact basic_normalize_idem s

theorem c6_fallback_idempotent_witness :
    (normalize_sql (fun _ => none)
        ((normalize_sql (fun _ => none)
          "SELECT name FROM providers WHERE drg_code = '470' LIMIT 5").1)).1 =
      (normalize_sql (fun _ => none)
        "SELECT name FROM providers WHERE drg_code = '470' LIMIT 5").1 :=
  c6_fallback_idempotent (fun _ => none) _ rfl rfl

end HCNav
